import Mathlib

/-!
Verification of the path algebra (`vpath`), the `stableSort` utility and the
`CompilerHost.writeFile` output registry of the repository.

Strings are modelled as `List Char` (UTF-16 code units beyond the BMP are not
relevant to any claim).  JavaScript regular expressions appearing in the source
are translated into executable functions following the ECMAScript matching
semantics (leftmost alternative, greedy/lazy quantifiers); `\s` is modelled by
the ECMAScript white-space set, `.` by "any char except a line terminator",
`\w` by `[A-Za-z0-9_]`.  `Intl` is modelled as absent, so `compareStrings`
takes its fallback branch (`toUpperCase`, modelled on ASCII, then code-unit
comparison).
-/

namespace TS

abbrev Str := List Char

/-- Coerce a string literal to the `List Char` model. -/
def str (s : String) : Str := s.data

/-- The separator class `[\\/]` of the source regexes. -/
def isSepChar (c : Char) : Bool := c = '/' || c = '\\'

/-- ECMAScript `\s` (WhiteSpace ∪ LineTerminator), as used by `\s` and
`String.prototype.trim`. -/
def isSpaceChar (c : Char) : Bool :=
  c = ' ' || c = '\t' || c = '\n' || c = '\r' || c = '\x0b' || c = '\x0c' ||
  c = '\u00A0' || c = '\uFEFF' || c = '\u1680' ||
  ('\u2000' ≤ c && c ≤ '\u200A') || c = '\u2028' || c = '\u2029' ||
  c = '\u202F' || c = '\u205F' || c = '\u3000'

/-- ECMAScript line terminators, the characters `.` does not match. -/
def isLineTerm (c : Char) : Bool :=
  c = '\n' || c = '\r' || c = '\u2028' || c = '\u2029'

/-- ECMAScript `\w`: `[A-Za-z0-9_]`. -/
def isWordChar (c : Char) : Bool := c.isAlphanum || c = '_'

/-- Scanner state for `normalizeSlashes`' global replace of `\s*[\\/]\s*`
by `/`: `plain` = ordinary scanning, `afterSep` = just replaced a separator
(its trailing `\s*` is still being consumed), `pending buf` = a whitespace
run (held in `buf`, reversed) that becomes part of a match iff a separator
follows it. -/
inductive NsMode where
  | plain : NsMode
  | afterSep : NsMode
  | pending : Str → NsMode

/-- One left-to-right pass of `path.replace(/\s*[\\/]\s*/g, "/")`. -/
def nsScanAux : NsMode → Str → Str
  | .plain, [] => []
  | .afterSep, [] => []
  | .pending buf, [] => buf.reverse
  | .plain, c :: r =>
    if isSepChar c then '/' :: nsScanAux .afterSep r
    else if isSpaceChar c then nsScanAux (.pending [c]) r
    else c :: nsScanAux .plain r
  | .afterSep, c :: r =>
    if isSpaceChar c then nsScanAux .afterSep r
    else if isSepChar c then '/' :: nsScanAux .afterSep r
    else c :: nsScanAux .plain r
  | .pending buf, c :: r =>
    if isSpaceChar c then nsScanAux (.pending (c :: buf)) r
    else if isSepChar c then '/' :: nsScanAux .afterSep r
    else buf.reverse ++ c :: nsScanAux .plain r

/-- `String.prototype.trim`. -/
def trimStr (l : Str) : Str :=
  ((l.dropWhile isSpaceChar).reverse.dropWhile isSpaceChar).reverse

/-- Source `normalizeSlashes(path)`:
`path.replace(/\s*[\\/]\s*/g, "/").trim()`. -/
def normalizeSlashes (p : Str) : Str := trimStr (nsScanAux .plain p)

/-- Length of the shortest prefix matched by the lazy `.*?[\\/]`: the first
separator, reachable without crossing a line terminator. -/
def lazyDotSep : Str → Option Nat
  | [] => none
  | c :: r =>
    if isSepChar c then some 1
    else if isLineTerm c then none
    else (lazyDotSep r).map (· + 1)

/-- First alternative of `rootRegExp`:
`^[\\/]([\\/](.*?[\\/](.*?[\\/])?)?)?` (match length, if it matches). -/
def alt1Len : Str → Option Nat
  | [] => none
  | c :: r =>
    if isSepChar c then
      some (match r with
        | d :: r2 =>
          if isSepChar d then
            2 + (match lazyDotSep r2 with
              | some k => k + (match lazyDotSep (r2.drop k) with
                | some m => m
                | none => 0)
              | none => 0)
          else 1
        | [] => 1)
    else none

/-- Second alternative of `rootRegExp`: `^[a-zA-Z]:[\\/]?`. -/
def alt2Len : Str → Option Nat
  | a :: b :: r =>
    if a.isAlpha ∧ b = ':' then
      some (2 + (match r with
        | c :: _ => if isSepChar c then 1 else 0
        | [] => 0))
    else none
  | _ => none

/-- Third alternative of `rootRegExp`: `^\w+:\/{2}[^\\/]*[\\/]?`. -/
def alt3Len (l : Str) : Option Nat :=
  let w := l.takeWhile isWordChar
  if w.isEmpty then none
  else
    match l.drop w.length with
    | ':' :: '/' :: '/' :: r =>
      let ns := r.takeWhile (fun c => !isSepChar c)
      some (w.length + 3 + ns.length + (match r.drop ns.length with
        | c :: _ => if isSepChar c then 1 else 0
        | [] => 0))
    | _ => none

/-- `rootRegExp.exec(path)`: the alternatives are tried left to right, all
anchored at the start. -/
def rootMatch (p : Str) : Option Nat :=
  (alt1Len p).orElse fun _ => (alt2Len p).orElse fun _ => alt3Len p

/-- Source `getRootLength(path)`: `match ? match[0].length : 0`. -/
def getRootLength (p : Str) : Nat := (rootMatch p).getD 0

/-- Source `isAbsolute(path)`: `rootRegExp.test(path)`. -/
def isAbsolute (p : Str) : Bool := (rootMatch p).isSome

/-- Source `hasTrailingSeperator(path)`: `/[\\/]$/.test(path)`. -/
def hasTrailingSeperator (p : Str) : Bool :=
  match p.getLast? with
  | some c => isSepChar c
  | none => false

/-- `path.split(/\/+/g)`.  The Bool is true while a separator run is being
consumed. -/
def splitAux : Bool → Str → List Str
  | _, [] => [[]]
  | inRun, c :: r =>
    if c = '/' then
      if inRun then splitAux true r else [] :: splitAux true r
    else
      match splitAux false r with
      | [] => [[c]]
      | p :: ps => (c :: p) :: ps

/-- Source `parse(path)`: root prefix, then the remainder split on separator
runs, one trailing empty component popped, every component trimmed. -/
def parse (p : Str) : List Str :=
  let rootLength := getRootLength p
  let root := p.take rootLength
  let rest := splitAux false (p.drop rootLength)
  let rest := if rest.getLast? = some [] then rest.dropLast else rest
  root :: rest.map trimStr

/-- The loop of `reduce`, with the `normalized` array kept reversed (so
`push`/`pop`/last-element act on the head). -/
def reduceAux : List Str → List Str → List Str
  | acc, [] => acc.reverse
  | acc, c :: cs =>
    if c = ['.'] then reduceAux acc cs
    else if c = ['.', '.'] ∧ acc ≠ [] ∧ acc.head? ≠ some ['.', '.'] then
      reduceAux acc.tail cs
    else reduceAux (c :: acc) cs

/-- Source `reduce(components)`: starts from `[components[0]]`, skips `.`,
pops on `..` unless the previous entry is `..` or absent, else appends.
(The source is only ever called on the non-empty output of `parse`.) -/
def reduce : List Str → List Str
  | [] => []
  | c :: cs => reduceAux [c] cs

/-- `components.slice(1).join("/")`. -/
def interSlash : List Str → Str
  | [] => []
  | [x] => x
  | x :: xs => x ++ '/' :: interSlash xs

/-- Source `format(components)`:
`components.length ? components[0] + components.slice(1).join("/") : ""`. -/
def format : List Str → Str
  | [] => []
  | c :: cs => c ++ interSlash cs

/-- Source `normalize(path)`. -/
def normalize (p : Str) : Str :=
  let c := reduce (parse (normalizeSlashes p))
  if 1 < c.length ∧ hasTrailingSeperator p = true then format c ++ ['/']
  else format c

/-- Source `combine(path, ...paths)`. -/
def combine (p : Str) (paths : List Str) : Str :=
  paths.foldl
    (fun acc name =>
      let name := normalizeSlashes name
      if name = [] then acc
      else if acc = [] ∨ isAbsolute name = true then name
      else if hasTrailingSeperator acc = true then acc ++ name
      else acc ++ '/' :: name)
    (normalizeSlashes p)

/-- Source `resolve(path, ...paths)`: `normalize(combine(path, ...paths))`. -/
def resolve (p : Str) (paths : List Str) : Str := normalize (combine p paths)

/-- `String.prototype.toUpperCase`, modelled on ASCII. -/
def toUpperAscii (c : Char) : Char :=
  if 'a' ≤ c ∧ c ≤ 'z' then Char.ofNat (c.toNat - 32) else c

/-- JavaScript `<` on strings: lexicographic by code unit. -/
def strLt : Str → Str → Bool
  | [], [] => false
  | [], _ :: _ => true
  | _ :: _, [] => false
  | a :: as, b :: bs =>
    if a.val < b.val then true
    else if b.val < a.val then false
    else strLt as bs

/-- Source `compareStrings(a, b, ignoreCase)` with `Intl` absent (the
`undefined` cases cannot arise at its call sites inside `relative`). -/
def compareStrings (a b : Str) (ignoreCase : Bool) : Int :=
  if a = b then 0
  else
    let a' := if ignoreCase then a.map toUpperAscii else a
    let b' := if ignoreCase then b.map toUpperAscii else b
    if strLt a' b' then -1 else if strLt b' a' then 1 else 0

/-- The first loop of `relative`: the number of leading positions at which
the two component lists compare equal. -/
def commonStart (ignoreCase : Bool) : List Str → List Str → Nat
  | a :: as, b :: bs =>
    if compareStrings a b ignoreCase ≠ 0 then 0
    else commonStart ignoreCase as bs + 1
  | _, _ => 0

/-- Source `relative(from, to, ignoreCase)`; the two `throw new Error(...)`
are modelled by `Except.error`. -/
def relative (fromPath toPath : Str) (ignoreCase : Bool) : Except String Str :=
  if isAbsolute fromPath = false then Except.error "Path not absolute: from"
  else if isAbsolute toPath = false then Except.error "Path not absolute: to"
  else
    let fromComponents := reduce (parse fromPath)
    let toComponents := reduce (parse toPath)
    let start := commonStart ignoreCase fromComponents toComponents
    if start = 0 then Except.ok (format toComponents)
    else
      Except.ok (format ([] ::
        (List.replicate (fromComponents.length - start) ['.', '.'] ++
          toComponents.drop start)))

/-- The reduced component list of a path, `reduce(parse(normalizeSlashes(path)))`,
as computed inside `normalize`. -/
def reducedComponents (p : Str) : List Str := reduce (parse (normalizeSlashes p))

/-- Two adjacent `/` characters occur somewhere in the string. -/
def hasDoubleSlash : Str → Bool
  | c :: d :: r => (c = '/' && d = '/') || hasDoubleSlash (d :: r)
  | _ => false

/-- An adjacent pair is allowed in `normalizeSlashes` output: never whitespace
directly before or after a `/`. -/
def okPair (a b : Char) : Prop :=
  ¬((isSpaceChar a = true ∧ b = '/') ∨ (a = '/' ∧ isSpaceChar b = true))

/-- A character that cannot interact with any of the path grammar: not a
separator, not whitespace, not a colon. -/
def PlainChar (c : Char) : Prop := isSepChar c = false ∧ isSpaceChar c = false ∧ c ≠ ':'

/-- An ordinary path component: nonempty, not `.` or `..`, made of plain
characters. -/
def PlainComp (s : Str) : Prop :=
  s ≠ [] ∧ s ≠ ['.'] ∧ s ≠ ['.', '.'] ∧ ∀ c ∈ s, PlainChar c

instance (c : Char) : Decidable (PlainChar c) := by
  unfold PlainChar
  infer_instance

instance (s : Str) : Decidable (PlainComp s) := by
  unfold PlainComp
  infer_instance

/-- The canonical POSIX-style absolute path `/c₁/…/cₙ`. -/
def slashPath (comps : List Str) : Str := '/' :: interSlash comps

/-- Source `compareValues(a, b)` at number type, as used on array indices in
`stableSort` (the `undefined`/`null` cases cannot arise there). -/
def compareValues (a b : Nat) : Int := if a = b then 0 else if a < b then -1 else 1

/-- JavaScript `x || y` on numbers: `x` if it is nonzero, else `y`. -/
def jsOr (x y : Int) : Int := if x ≠ 0 then x else y

/-- The comparator `(x, y) => comparer(array[x], array[y]) || compareValues(x, y)`
of `stableSort`, read as a ≤-relation on indices. -/
def sortLE (l : List α) (cmp : α → α → Int) (i j : Fin l.length) : Prop :=
  jsOr (cmp (l.get i) (l.get j)) (compareValues i.val j.val) ≤ 0

instance (l : List α) (cmp : α → α → Int) : DecidableRel (sortLE l cmp) := fun i j => by
  unfold sortLE; infer_instance

/-- The index array of `stableSort` after `.sort(...)`.  `Array.prototype.sort`
(stable since ES2019) is modelled by insertion sort; the tie-break by index
makes the comparator a total order on indices, under which every correct
stable sort returns the same list. -/
def sortedIndices (l : List α) (cmp : α → α → Int) : List (Fin l.length) :=
  List.insertionSort (sortLE l cmp) (List.finRange l.length)

/-- Source `stableSort(array, comparer)`: sort index array by value then
position, map back through the array. -/
def stableSort (l : List α) (cmp : α → α → Int) : List α :=
  (sortedIndices l cmp).map l.get

/-- `String.prototype.toLowerCase`, modelled on ASCII (as used by
`getCanonicalFileName`). -/
def toLowerAscii (c : Char) : Char :=
  if 'A' ≤ c ∧ c ≤ 'Z' then Char.ofNat (c.toNat + 32) else c

/-- Modelled from the spec: `VirtualFileSystem.sameName` lives in `vfs.ts`,
which is not among the sources (only its callers are).  Spec §4.3: "name
equality under the active case rule — the single predicate all equality
checks above must funnel through"; exact equality when case-sensitive,
equality after case folding otherwise. -/
def sameName (useCaseSensitiveFileNames : Bool) (a b : Str) : Bool :=
  if useCaseSensitiveFileNames then a = b
  else a.map toLowerAscii = b.map toLowerAscii

/-- The output documents of `CompilerHost`: `TextDocument(entry.path, content)`
records only the fields `writeFile` uses. -/
structure TextDocument where
  file : Str
  text : Str

/-- One successful `CompilerHost.writeFile(fileName, content, writeByteOrderMark)`:
the BOM is prepended if requested, the path `p` of the `vfs.addFile` result is
abstracted as an arbitrary string, and the document replaces the first
`sameName` match in `outputs` or is appended. -/
def writeFileStep (cs : Bool) (outputs : List TextDocument)
    (p : Str) (content : Str) (bom : Bool) : List TextDocument :=
  let content := if bom then '\uFEFF' :: content else content
  let document : TextDocument := ⟨p, content⟩
  match outputs.findIdx? (fun doc => sameName cs document.file doc.file) with
  | none => outputs ++ [document]
  | some i => outputs.set i document

/-- A sequence of successful `writeFile` calls starting from the empty
`outputs` array; each step carries (path of the added entry, content,
writeByteOrderMark). -/
def runWriteFiles (cs : Bool) (steps : List (Str × Str × Bool)) : List TextDocument :=
  steps.foldl (fun outs s => writeFileStep cs outs s.1 s.2.1 s.2.2) []

end TS

namespace TS

/-! ### Scenario checks from the specification -/

example : normalize (str "a/./b/../c") = str "a/c" := by decide

example : relative (str "/a/b") (str "/a/c") false = Except.ok (str "../c") := by rfl

end TS

namespace TS

/-- Claim C2: during normalization a `..` is supposed to pop the preceding
component unless that component is `..` or absent, in which case the `..` is
retained at the front (spec §3: "a root, once computed, is never re-interpreted
as a component", "leading `..` cannot resolve past an unknown root").  The code
instead lets the first `..` of `../a` pop the empty root slot off the
`normalized` stack, so the `..` disappears: `normalize("../a")` evaluates to
`"a"`, not `"../a"`. -/
theorem c2_dotdot_pops_root :
    normalize (str "../a") = str "a" ∧ str "a" ≠ str "../a" := by decide

/-- Claim C5: `normalize` is claimed idempotent, but the same root-slot popping
makes it fail: `normalize("../..") = ".."` while `normalize("..") = ""`. -/
theorem c5_not_idempotent :
    normalize (str "../..") = str ".." ∧ normalize (str "..") = str "" ∧
    normalize (normalize (str "../..")) ≠ normalize (str "../..") := by decide

/-- Claim C3, counterexample: `normalizeSlashes` replaces each single separator
(with surrounding whitespace) by `/` but does not collapse runs, so `a//b` is
returned unchanged and contains two adjacent `/`. -/
theorem c3_counterexample :
    normalizeSlashes (str "a//b") = str "a//b" ∧
    hasDoubleSlash (normalizeSlashes (str "a//b")) = true := by decide

/-- Claim C4, counterexample: `parse` pops the trailing empty component of a
normalized path ending in a separator, so `format(parse(normalize("/a/")))`
gives `"/a"`, not `normalize("/a/") = "/a/"`. -/
theorem c4_counterexample :
    normalize (str "/a/") = str "/a/" ∧
    format (parse (normalize (str "/a/"))) = str "/a" ∧
    str "/a" ≠ str "/a/" := by decide

/-- Claim C6, counterexample: with components counted after the root slot (the
spec's `parse` returns `[root, component, ...]`), `normalize("/a/")` keeps its
trailing separator although only one component remains after reduction, so
"re-appends iff ... more than one component remains" fails at `"/a/"`. -/
theorem c6_counterexample :
    ¬((normalize (str "/a/") = format (reducedComponents (str "/a/")) ++ ['/']) ↔
      (1 < (reducedComponents (str "/a/")).length - 1 ∧
        hasTrailingSeperator (str "/a/") = true)) := by decide

/-- Claim C1, counterexample: for `from = "/a"`, `to = "/b/"` (absolute, but
`to` has a trailing separator) `relative` gives `"../b"`, and
`resolve("/a", "../b") = "/b" ≠ "/b/" = normalize("/b/")`. -/
theorem c1_counterexample :
    relative (str "/a") (str "/b/") false = Except.ok (str "../b") ∧
    resolve (str "/a") [str "../b"] = str "/b" ∧
    normalize (str "/b/") = str "/b/" ∧
    resolve (str "/a") [str "../b"] ≠ normalize (str "/b/") := by
  refine ⟨by rfl, by decide, by decide, by decide⟩

/-- Claim C7, counterexample: when the roots differ, `relative` does not return
the absolute `to` path unmodified; it returns `format(reduce(parse(to)))`,
which elides the `.` of `"/x/./y"`. -/
theorem c7_counterexample :
    relative (str "c:/a") (str "/x/./y") false = Except.ok (str "/x/y") ∧
    str "/x/y" ≠ str "/x/./y" := by
  refine ⟨by rfl, by decide⟩

/-- Claim C8: `relative(from, to, ignoreCase)` throws exactly when one of the
two arguments is not rooted; on two rooted arguments it always returns a
value. -/
theorem relative_ok_iff_absolute (fromPath toPath : Str) (ignoreCase : Bool) :
    (∃ r, relative fromPath toPath ignoreCase = Except.ok r) ↔
      (isAbsolute fromPath = true ∧ isAbsolute toPath = true) := by
  constructor
  · rintro ⟨r, hr⟩
    unfold relative at hr
    by_cases hf : isAbsolute fromPath = false
    · simp [hf] at hr
    · by_cases ht : isAbsolute toPath = false
      · simp [hf, ht] at hr
      · exact ⟨Bool.eq_true_of_not_eq_false hf, Bool.eq_true_of_not_eq_false ht⟩
  · rintro ⟨hf, ht⟩
    unfold relative
    rw [if_neg (by simp [hf]), if_neg (by simp [ht])]
    by_cases hs :
        commonStart ignoreCase (reduce (parse fromPath)) (reduce (parse toPath)) = 0
    · rw [if_pos hs]; exact ⟨_, rfl⟩
    · rw [if_neg hs]; exact ⟨_, rfl⟩

end TS

namespace TS

/-- Claim C6 (amended): `normalize` re-appends a trailing separator iff the
input had one and the reduced list — which contains the root slot as its first
entry — has more than one entry, i.e. at least one component besides the
root slot. -/
theorem normalize_trailing_iff (p : Str) :
    normalize p = format (reducedComponents p) ++ ['/'] ↔
      (1 < (reducedComponents p).length ∧ hasTrailingSeperator p = true) := by
  unfold normalize reducedComponents
  by_cases h : 1 < (reduce (parse (normalizeSlashes p))).length ∧
      hasTrailingSeperator p = true
  · rw [if_pos h]
    exact iff_of_true rfl h
  · rw [if_neg h]
    refine iff_of_false (fun heq => ?_) h
    have := congrArg List.length heq
    simp at this

/-- Claim C7 (amended): when the component lists of the two reduced paths
diverge at the very first slot — the roots compare unequal, or one reduced
list is empty — `relative` returns `format(reduce(parse(to)))`: the reduced
`to` path (not necessarily `to` itself) instead of a `..`-chain. -/
theorem relative_of_first_slot_diverges (fromPath toPath : Str) (ignoreCase : Bool)
    (hf : isAbsolute fromPath = true) (ht : isAbsolute toPath = true)
    (hdiv : reduce (parse fromPath) = [] ∨ reduce (parse toPath) = [] ∨
      ∃ a b, (reduce (parse fromPath)).head? = some a ∧
        (reduce (parse toPath)).head? = some b ∧
        compareStrings a b ignoreCase ≠ 0) :
    relative fromPath toPath ignoreCase =
      Except.ok (format (reduce (parse toPath))) := by
  have hstart : commonStart ignoreCase (reduce (parse fromPath))
      (reduce (parse toPath)) = 0 := by
    rcases hdiv with h | h | ⟨a, b, ha, hb, hab⟩
    · rw [h]; rfl
    · rw [h]; unfold commonStart
      cases reduce (parse fromPath) <;> rfl
    · cases hfc : reduce (parse fromPath) with
      | nil => rfl
      | cons x xs =>
        cases htc : reduce (parse toPath) with
        | nil => rfl
        | cons y ys =>
          rw [hfc] at ha; rw [htc] at hb
          simp at ha hb
          subst ha; subst hb
          unfold commonStart
          rw [if_pos hab]
  unfold relative
  rw [if_neg (by simp [hf]), if_neg (by simp [ht])]
  rw [if_pos hstart]

/-- Witness for `relative_of_first_slot_diverges` at `from = "c:/a"`,
`to = "/x"`. -/
theorem relative_of_first_slot_diverges_witness :
    relative (str "c:/a") (str "/x") false =
      Except.ok (format (reduce (parse (str "/x")))) :=
  relative_of_first_slot_diverges (str "c:/a") (str "/x") false
    (by decide) (by decide)
    (Or.inr (Or.inr ⟨str "c:/", str "/", by decide, by decide, by decide⟩))

end TS

namespace TS

/-! ### Length accounting for `format`, `parse` and `reduce` -/

theorem splitAux_false_slash (r : Str) :
    splitAux false ('/' :: r) = [] :: splitAux true r := rfl

theorem splitAux_true_slash (r : Str) :
    splitAux true ('/' :: r) = splitAux true r := rfl

theorem splitAux_cons_of_ne (b : Bool) (c : Char) (r p : Str) (ps : List Str)
    (hc : ¬c = '/') (h : splitAux false r = p :: ps) :
    splitAux b (c :: r) = (c :: p) :: ps := by
  rw [splitAux, if_neg hc, h]

theorem splitAux_ne_nil : ∀ (b : Bool) (l : Str), splitAux b l ≠ [] := by
  intro b l
  induction l generalizing b with
  | nil => simp [splitAux]
  | cons c r ih =>
    by_cases hc : c = '/'
    · subst hc
      cases b
      · rw [splitAux_false_slash]; simp
      · rw [splitAux_true_slash]; exact ih true
    · cases hs : splitAux false r with
      | nil => exact absurd hs (ih false)
      | cons p ps => rw [splitAux_cons_of_ne b c r p ps hc hs]; simp

theorem interSlash_length_eq (ps : List Str) :
    (interSlash ps).length = (ps.map List.length).sum + (ps.length - 1) := by
  induction ps with
  | nil => simp [interSlash]
  | cons x xs ih =>
    cases xs with
    | nil => simp [interSlash]
    | cons y ys =>
      rw [show interSlash (x :: y :: ys) = x ++ '/' :: interSlash (y :: ys) from rfl]
      simp only [List.length_append, List.length_cons, ih, List.map_cons, List.sum_cons,
        List.length_cons]
      omega

theorem interSlash_splitAux_length (l : Str) :
    (interSlash (splitAux false l)).length ≤ l.length ∧
    (interSlash (splitAux true l)).length ≤ l.length := by
  induction l with
  | nil => simp [splitAux, interSlash]
  | cons c r ih =>
    by_cases hc : c = '/'
    · subst hc
      constructor
      · rw [splitAux_false_slash]
        cases hs : splitAux true r with
        | nil => exact absurd hs (splitAux_ne_nil true r)
        | cons p ps =>
          rw [show interSlash ([] :: p :: ps) = [] ++ '/' :: interSlash (p :: ps) from rfl]
          have h2 := ih.2
          rw [hs] at h2
          simpa using Nat.add_le_add_right h2 1
      · rw [splitAux_true_slash]
        exact le_trans ih.2 (Nat.le_succ _)
    · have key : ∀ b : Bool, (interSlash (splitAux b (c :: r))).length ≤ r.length + 1 := by
        intro b
        cases hs : splitAux false r with
        | nil => exact absurd hs (splitAux_ne_nil false r)
        | cons p ps =>
          rw [splitAux_cons_of_ne b c r p ps hc hs]
          have h1 := ih.1
          rw [hs] at h1
          rw [interSlash_length_eq] at h1 ⊢
          simp only [List.map_cons, List.sum_cons, List.length_cons] at h1 ⊢
          omega
      exact ⟨key false, key true⟩

theorem sum_dropLast_le (l : List Nat) : l.dropLast.sum ≤ l.sum := by
  induction l with
  | nil => simp
  | cons x xs ih =>
    cases xs with
    | nil => simp
    | cons y ys =>
      rw [List.dropLast_cons₂, List.sum_cons, List.sum_cons]
      exact Nat.add_le_add_left ih x

theorem interSlash_dropLast_length (ps : List Str) :
    (interSlash ps.dropLast).length ≤ (interSlash ps).length := by
  rw [interSlash_length_eq, interSlash_length_eq]
  rw [List.map_dropLast]
  have h1 := sum_dropLast_le (ps.map List.length)
  have h2 : ps.dropLast.length ≤ ps.length := by
    rw [List.length_dropLast]; omega
  simp only [List.length_dropLast]
  omega

theorem trimStr_length_le (l : Str) : (trimStr l).length ≤ l.length := by
  unfold trimStr
  have h1 := (List.dropWhile_sublist (l := l) isSpaceChar).length_le
  have h2 := (List.dropWhile_sublist
    (l := (l.dropWhile isSpaceChar).reverse) isSpaceChar).length_le
  simp only [List.length_reverse] at *
  omega

theorem interSlash_map_trim_length (ps : List Str) :
    (interSlash (ps.map trimStr)).length ≤ (interSlash ps).length := by
  rw [interSlash_length_eq, interSlash_length_eq]
  have h1 : ((ps.map trimStr).map List.length).sum ≤ (ps.map List.length).sum := by
    rw [List.map_map]
    exact List.sum_le_sum (fun s _ => trimStr_length_le s)
  simp only [List.length_map]
  omega

theorem parse_ne_nil (q : Str) : parse q ≠ [] := by
  intro h
  simp [parse] at h

theorem format_parse_length_le (q : Str) : (format (parse q)).length ≤ q.length := by
  have hps : ∀ ps0 : List Str,
      (interSlash ((if ps0.getLast? = some [] then ps0.dropLast else ps0).map
        trimStr)).length ≤ (interSlash ps0).length := by
    intro ps0
    refine le_trans (interSlash_map_trim_length _) ?_
    by_cases h : ps0.getLast? = some []
    · rw [if_pos h]; exact interSlash_dropLast_length ps0
    · rw [if_neg h]
  have hbody : format (parse q) =
      q.take (getRootLength q) ++
        interSlash (((if (splitAux false (q.drop (getRootLength q))).getLast? = some []
          then (splitAux false (q.drop (getRootLength q))).dropLast
          else splitAux false (q.drop (getRootLength q))).map trimStr)) := rfl
  rw [hbody]
  rw [List.length_append]
  have h1 := hps (splitAux false (q.drop (getRootLength q)))
  have h2 := (interSlash_splitAux_length (q.drop (getRootLength q))).1
  have h3 : (q.take (getRootLength q)).length + (q.drop (getRootLength q)).length
      = q.length := by
    simp [List.length_take, List.length_drop]
    omega
  omega

theorem interSlash_insert_le (A B : List Str) (x : Str) :
    (interSlash (A ++ B)).length ≤ (interSlash (A ++ x :: B)).length := by
  rw [interSlash_length_eq, interSlash_length_eq]
  simp only [List.map_append, List.sum_append, List.length_append, List.map_cons,
    List.sum_cons, List.length_cons]
  omega

theorem interSlash_insert_lt (A B : List Str) (x : Str) (hx : 1 ≤ x.length) :
    (interSlash (A ++ B)).length < (interSlash (A ++ x :: B)).length := by
  rw [interSlash_length_eq, interSlash_length_eq]
  simp only [List.map_append, List.sum_append, List.length_append, List.map_cons,
    List.sum_cons, List.length_cons]
  rcases A with _ | ⟨a, A'⟩ <;> rcases B with _ | ⟨b, B'⟩ <;> simp <;> omega

theorem format_length_cons (c : Str) (cs : List Str) :
    (format (c :: cs)).length = c.length + (interSlash cs).length := by
  rw [show format (c :: cs) = c ++ interSlash cs from rfl, List.length_append]

theorem format_insert_le (A B : List Str) (x : Str) :
    (format (A ++ B)).length ≤ (format (A ++ x :: B)).length := by
  cases A with
  | nil =>
    cases B with
    | nil => simp [format, interSlash]
    | cons b t =>
      rw [List.nil_append, List.nil_append, format_length_cons, format_length_cons,
        interSlash_length_eq, interSlash_length_eq]
      simp only [List.map_cons, List.sum_cons, List.length_cons]
      omega
  | cons a A' =>
    rw [List.cons_append, List.cons_append, format_length_cons, format_length_cons]
    exact Nat.add_le_add_left (interSlash_insert_le A' B x) _

theorem format_insert_lt (A B : List Str) (x : Str) (hx : 1 ≤ x.length) :
    (format (A ++ B)).length < (format (A ++ x :: B)).length := by
  cases A with
  | nil =>
    cases B with
    | nil => simp [format, interSlash]; omega
    | cons b t =>
      rw [List.nil_append, List.nil_append, format_length_cons, format_length_cons,
        interSlash_length_eq, interSlash_length_eq]
      simp only [List.map_cons, List.sum_cons, List.length_cons]
      omega
  | cons a A' =>
    rw [List.cons_append, List.cons_append, format_length_cons, format_length_cons]
    exact Nat.add_lt_add_left (interSlash_insert_lt A' B x hx) _

theorem format_insert_two_lt (A B : List Str) (x y : Str) (hy : 1 ≤ y.length) :
    (format (A ++ B)).length < (format (A ++ x :: y :: B)).length :=
  lt_of_lt_of_le (format_insert_lt A B y hy) (format_insert_le A (y :: B) x)

theorem reduceAux_shrink : ∀ (cs acc : List Str),
    reduceAux acc cs = acc.reverse ++ cs ∨
      (format (reduceAux acc cs)).length < (format (acc.reverse ++ cs)).length := by
  intro cs
  induction cs with
  | nil => intro acc; left; simp [reduceAux]
  | cons c cs' ih =>
    intro acc
    by_cases hdot : c = ['.']
    · have step : reduceAux acc (c :: cs') = reduceAux acc cs' := by
        rw [reduceAux, if_pos hdot]
      have hlt : (format (acc.reverse ++ cs')).length <
          (format (acc.reverse ++ c :: cs')).length := by
        subst hdot; exact format_insert_lt acc.reverse cs' ['.'] (by decide)
      rcases ih acc with h | h
      · right; rw [step, h]; exact hlt
      · right; rw [step]; exact lt_trans h hlt
    · by_cases hpop : c = ['.', '.'] ∧ acc ≠ [] ∧ acc.head? ≠ some ['.', '.']
      · have hc := hpop.1
        have hne := hpop.2.1
        obtain ⟨a, acc', rfl⟩ : ∃ a acc', acc = a :: acc' := by
          cases acc with
          | nil => exact absurd rfl hne
          | cons a acc' => exact ⟨a, acc', rfl⟩
        have step : reduceAux (a :: acc') (c :: cs') = reduceAux acc' cs' := by
          rw [reduceAux, if_neg hdot, if_pos hpop]; rfl
        have htarget : (a :: acc').reverse ++ c :: cs' =
            acc'.reverse ++ a :: c :: cs' := by
          rw [List.reverse_cons, List.append_assoc]; rfl
        have h2 : (format (acc'.reverse ++ cs')).length <
            (format (acc'.reverse ++ a :: c :: cs')).length := by
          subst hc; exact format_insert_two_lt _ _ a ['.', '.'] (by decide)
        right
        rw [step, htarget]
        rcases ih acc' with h | h
        · rw [h]; exact h2
        · exact lt_trans h h2
      · have step : reduceAux acc (c :: cs') = reduceAux (c :: acc) cs' := by
          rw [reduceAux, if_neg hdot, if_neg hpop]
        have hshape : (c :: acc).reverse ++ cs' = acc.reverse ++ c :: cs' := by
          rw [List.reverse_cons, List.append_assoc]; rfl
        rcases ih (c :: acc) with h | h
        · left; rw [step, h, hshape]
        · right; rw [step]; rw [hshape] at h; exact h

theorem reduce_shrink (c0 : Str) (cs : List Str) :
    reduce (c0 :: cs) = c0 :: cs ∨
      (format (reduce (c0 :: cs))).length < (format (c0 :: cs)).length := by
  have h := reduceAux_shrink cs [c0]
  simpa [reduce] using h

/-- Claim C4 (amended): parse-then-format returns exactly the paths that the
reduction step leaves unchanged: whenever `format (reduce (parse q)) = q`
— no `.`/`..` elided, no root-slot popped, no re-appended trailing separator —
also `format (parse q) = q`.  A normalized path ending in a separator outside
its root (e.g. `"/a/"`, see the counterexample) fails the hypothesis, and the
round trip drops that separator. -/
theorem format_parse_of_reduce_fixed (q : Str)
    (h : format (reduce (parse q)) = q) : format (parse q) = q := by
  cases hp : parse q with
  | nil => exact absurd hp (parse_ne_nil q)
  | cons c0 cs =>
    rcases reduce_shrink c0 cs with he | hlt
    · rw [hp] at h; rw [he] at h; exact h
    · exfalso
      have h1 : (format (parse q)).length ≤ q.length := format_parse_length_le q
      have h2 : (format (reduce (parse q))).length = q.length := by rw [h]
      rw [hp] at h1 h2
      omega

/-- Witness for `format_parse_of_reduce_fixed` at `q = "/a"`. -/
theorem format_parse_of_reduce_fixed_witness :
    format (parse (str "/a")) = str "/a" :=
  format_parse_of_reduce_fixed (str "/a") (by decide)

end TS

namespace TS

/-! ### Invariants of `normalizeSlashes` output -/

theorem sep_not_space {c : Char} (h : isSepChar c = true) : isSpaceChar c = false := by
  have : c = '/' ∨ c = '\\' := by
    simpa [isSepChar] using h
  rcases this with rfl | rfl <;> decide

theorem space_ne_slash {c : Char} (h : isSpaceChar c = true) : c ≠ '/' := by
  intro hc; subst hc; simp [isSpaceChar] at h

theorem okPair_of_not_space {a b : Char}
    (ha : isSpaceChar a = false) (hb : isSpaceChar b = false) : okPair a b := by
  unfold okPair
  simp [ha, hb]

theorem okPair_of_left {a b : Char}
    (ha : isSpaceChar a = false) (ha' : a ≠ '/') : okPair a b := by
  unfold okPair
  simp [ha, ha']

theorem okPair_of_right {a b : Char}
    (hb : isSpaceChar b = false) (hb' : b ≠ '/') : okPair a b := by
  unfold okPair
  simp [hb, hb']

theorem okPair_symm {a b : Char} (h : okPair a b) : okPair b a := by
  unfold okPair at h ⊢
  tauto

theorem okPair_ws_ws {a b : Char}
    (ha : isSpaceChar a = true) (hb : isSpaceChar b = true) : okPair a b := by
  unfold okPair
  simp [space_ne_slash ha, space_ne_slash hb]

end TS

namespace TS

theorem ns_plain_sep {c : Char} (r : Str) (h : isSepChar c = true) :
    nsScanAux .plain (c :: r) = '/' :: nsScanAux .afterSep r := by
  rw [nsScanAux, if_pos h]

theorem ns_plain_ws {c : Char} (r : Str)
    (hs : isSepChar c = false) (hw : isSpaceChar c = true) :
    nsScanAux .plain (c :: r) = nsScanAux (.pending [c]) r := by
  rw [nsScanAux, if_neg (by simp [hs]), if_pos hw]

theorem ns_plain_other {c : Char} (r : Str)
    (hs : isSepChar c = false) (hw : isSpaceChar c = false) :
    nsScanAux .plain (c :: r) = c :: nsScanAux .plain r := by
  rw [nsScanAux, if_neg (by simp [hs]), if_neg (by simp [hw])]

theorem ns_afterSep_ws {c : Char} (r : Str) (hw : isSpaceChar c = true) :
    nsScanAux .afterSep (c :: r) = nsScanAux .afterSep r := by
  rw [nsScanAux, if_pos hw]

theorem ns_afterSep_sep {c : Char} (r : Str)
    (hw : isSpaceChar c = false) (hs : isSepChar c = true) :
    nsScanAux .afterSep (c :: r) = '/' :: nsScanAux .afterSep r := by
  rw [nsScanAux, if_neg (by simp [hw]), if_pos hs]

theorem ns_afterSep_other {c : Char} (r : Str)
    (hw : isSpaceChar c = false) (hs : isSepChar c = false) :
    nsScanAux .afterSep (c :: r) = c :: nsScanAux .plain r := by
  rw [nsScanAux, if_neg (by simp [hw]), if_neg (by simp [hs])]

theorem ns_pending_ws {c : Char} (buf r : Str) (hw : isSpaceChar c = true) :
    nsScanAux (.pending buf) (c :: r) = nsScanAux (.pending (c :: buf)) r := by
  rw [nsScanAux, if_pos hw]

theorem ns_pending_sep {c : Char} (buf r : Str)
    (hw : isSpaceChar c = false) (hs : isSepChar c = true) :
    nsScanAux (.pending buf) (c :: r) = '/' :: nsScanAux .afterSep r := by
  rw [nsScanAux, if_neg (by simp [hw]), if_pos hs]

theorem ns_pending_other {c : Char} (buf r : Str)
    (hw : isSpaceChar c = false) (hs : isSepChar c = false) :
    nsScanAux (.pending buf) (c :: r) = buf.reverse ++ c :: nsScanAux .plain r := by
  rw [nsScanAux, if_neg (by simp [hw]), if_neg (by simp [hs])]

theorem ns_afterSep_head : ∀ (l : Str) (c : Char),
    (nsScanAux .afterSep l).head? = some c → isSpaceChar c = false := by
  intro l
  induction l with
  | nil => intro c h; simp [nsScanAux] at h
  | cons d r ih =>
    intro c h
    by_cases hw : isSpaceChar d = true
    · rw [ns_afterSep_ws r hw] at h; exact ih c h
    · have hw' : isSpaceChar d = false := by simpa using hw
      by_cases hs : isSepChar d = true
      · rw [ns_afterSep_sep r hw' hs] at h
        simp at h
        subst h; decide
      · have hs' : isSepChar d = false := by simpa using hs
        rw [ns_afterSep_other r hw' hs'] at h
        simp at h
        subst h; exact hw'

theorem ns_plain_head_of (l : Str)
    (hl : ∀ c, l.head? = some c → isSpaceChar c = false) :
    ∀ c, (nsScanAux .plain l).head? = some c → isSpaceChar c = false := by
  cases l with
  | nil => intro c h; simp [nsScanAux] at h
  | cons d r =>
    intro c h
    have hd : isSpaceChar d = false := hl d rfl
    by_cases hs : isSepChar d = true
    · rw [ns_plain_sep r hs] at h
      simp at h; subst h; decide
    · have hs' : isSepChar d = false := by simpa using hs
      rw [ns_plain_other r hs' hd] at h
      simp at h; subst h; exact hd

theorem chain_okPair_of_ws (m : Str) (h : ∀ c ∈ m, isSpaceChar c = true) :
    m.Chain' okPair := by
  induction m with
  | nil => simp
  | cons c m' ih =>
    rw [List.chain'_cons']
    refine ⟨?_, ih (fun d hd => h d (List.mem_cons_of_mem c hd))⟩
    intro b hb
    have hbm : b ∈ m' := List.mem_of_mem_head? hb
    exact okPair_ws_ws (h c (List.mem_cons_self c m')) (h b (List.mem_cons_of_mem c hbm))

theorem nsScanAux_chain : ∀ l : Str,
    (nsScanAux .plain l).Chain' okPair ∧
    (nsScanAux .afterSep l).Chain' okPair ∧
    ∀ buf, (∀ c ∈ buf, isSpaceChar c = true) →
      (nsScanAux (.pending buf) l).Chain' okPair := by
  intro l
  induction l with
  | nil =>
    refine ⟨by simp [nsScanAux], by simp [nsScanAux], ?_⟩
    intro buf hbuf
    rw [show nsScanAux (.pending buf) [] = buf.reverse from rfl]
    exact chain_okPair_of_ws _ (fun c hc => hbuf c (List.mem_reverse.mp hc))
  | cons c r ih =>
    obtain ⟨ihp, iha, ihb⟩ := ih
    by_cases hsep : isSepChar c = true
    · have hw : isSpaceChar c = false := sep_not_space hsep
      have hcons : (('/' : Char) :: nsScanAux .afterSep r).Chain' okPair := by
        rw [List.chain'_cons']
        refine ⟨?_, iha⟩
        intro b hb
        exact okPair_of_not_space (by decide) (ns_afterSep_head r b hb)
      refine ⟨?_, ?_, ?_⟩
      · rw [ns_plain_sep r hsep]; exact hcons
      · rw [ns_afterSep_sep r hw hsep]; exact hcons
      · intro buf hbuf; rw [ns_pending_sep buf r hw hsep]; exact hcons
    · have hsep' : isSepChar c = false := by simpa using hsep
      by_cases hws : isSpaceChar c = true
      · refine ⟨?_, ?_, ?_⟩
        · rw [ns_plain_ws r hsep' hws]
          exact ihb [c] (by simpa using hws)
        · rw [ns_afterSep_ws r hws]; exact iha
        · intro buf hbuf
          rw [ns_pending_ws buf r hws]
          refine ihb (c :: buf) ?_
          intro d hd
          rcases List.mem_cons.mp hd with rfl | hd
          · exact hws
          · exact hbuf d hd
      · have hws' : isSpaceChar c = false := by simpa using hws
        have hslash : c ≠ '/' := by
          intro hcc; subst hcc; simp [isSepChar] at hsep'
        have hcons : (c :: nsScanAux .plain r).Chain' okPair := by
          rw [List.chain'_cons']
          exact ⟨fun b _ => okPair_of_left hws' hslash, ihp⟩
        refine ⟨?_, ?_, ?_⟩
        · rw [ns_plain_other r hsep' hws']; exact hcons
        · rw [ns_afterSep_other r hws' hsep']; exact hcons
        · intro buf hbuf
          rw [ns_pending_other buf r hws' hsep']
          rw [List.chain'_append]
          refine ⟨chain_okPair_of_ws _ (fun d hd => hbuf d (List.mem_reverse.mp hd)),
            hcons, ?_⟩
          intro x hx y hy
          have hxb : x ∈ buf := by
            have := List.mem_of_mem_getLast? hx
            exact List.mem_reverse.mp this
          have hyc : c = y := by simpa using hy
          subst hyc
          exact okPair_of_right hws' hslash

theorem nsScanAux_no_bslash : ∀ l : Str,
    '\\' ∉ nsScanAux .plain l ∧ '\\' ∉ nsScanAux .afterSep l ∧
    ∀ buf, (∀ c ∈ buf, isSpaceChar c = true) → '\\' ∉ nsScanAux (.pending buf) l := by
  intro l
  induction l with
  | nil =>
    refine ⟨by simp [nsScanAux], by simp [nsScanAux], ?_⟩
    intro buf hbuf h
    rw [show nsScanAux (.pending buf) [] = buf.reverse from rfl] at h
    have := hbuf '\\' (List.mem_reverse.mp h)
    simp [isSpaceChar] at this
  | cons c r ih =>
    obtain ⟨ihp, iha, ihb⟩ := ih
    by_cases hsep : isSepChar c = true
    · have hw : isSpaceChar c = false := sep_not_space hsep
      have hcons : '\\' ∉ ('/' : Char) :: nsScanAux .afterSep r := by
        intro h
        rcases List.mem_cons.mp h with h | h
        · exact absurd h.symm (by decide)
        · exact iha h
      refine ⟨?_, ?_, ?_⟩
      · rw [ns_plain_sep r hsep]; exact hcons
      · rw [ns_afterSep_sep r hw hsep]; exact hcons
      · intro buf hbuf; rw [ns_pending_sep buf r hw hsep]; exact hcons
    · have hsep' : isSepChar c = false := by simpa using hsep
      have hcb : c ≠ '\\' := by
        intro hcc; subst hcc; simp [isSepChar] at hsep'
      by_cases hws : isSpaceChar c = true
      · refine ⟨?_, ?_, ?_⟩
        · rw [ns_plain_ws r hsep' hws]
          exact ihb [c] (by simpa using hws)
        · rw [ns_afterSep_ws r hws]; exact iha
        · intro buf hbuf
          rw [ns_pending_ws buf r hws]
          refine ihb (c :: buf) ?_
          intro d hd
          rcases List.mem_cons.mp hd with rfl | hd
          · exact hws
          · exact hbuf d hd
      · have hws' : isSpaceChar c = false := by simpa using hws
        have hcons : '\\' ∉ c :: nsScanAux .plain r := by
          intro h
          rcases List.mem_cons.mp h with h | h
          · exact hcb h.symm
          · exact ihp h
        refine ⟨?_, ?_, ?_⟩
        · rw [ns_plain_other r hsep' hws']; exact hcons
        · rw [ns_afterSep_other r hws' hsep']; exact hcons
        · intro buf hbuf
          rw [ns_pending_other buf r hws' hsep']
          intro h
          rcases List.mem_append.mp h with h | h
          · have := hbuf '\\' (List.mem_reverse.mp h)
            simp [isSpaceChar] at this
          · exact hcons h

end TS

namespace TS

theorem chain_reverse_okPair {m : Str} (h : m.Chain' okPair) :
    m.reverse.Chain' okPair := by
  rw [List.chain'_reverse]
  exact List.Chain'.imp (fun a b hab => okPair_symm hab) h

theorem trimStr_chain {m : Str} (h : m.Chain' okPair) : (trimStr m).Chain' okPair := by
  unfold trimStr
  refine chain_reverse_okPair (List.Chain'.suffix ?_ (List.dropWhile_suffix _))
  exact chain_reverse_okPair (List.Chain'.suffix h (List.dropWhile_suffix _))

theorem trimStr_subset (m : Str) : trimStr m ⊆ m := by
  intro c hc
  unfold trimStr at hc
  rw [List.mem_reverse] at hc
  have hc2 := (List.dropWhile_sublist (l := (m.dropWhile isSpaceChar).reverse)
    isSpaceChar).subset hc
  rw [List.mem_reverse] at hc2
  exact (List.dropWhile_sublist (l := m) isSpaceChar).subset hc2

theorem trimStr_getLast_not_space (m : Str) :
    ∀ c, (trimStr m).getLast? = some c → isSpaceChar c = false := by
  intro c h
  unfold trimStr at h
  rw [List.getLast?_reverse] at h
  have := List.head?_dropWhile_not isSpaceChar ((m.dropWhile isSpaceChar).reverse)
  rw [h] at this
  exact this

theorem trimStr_head_not_space (m : Str) :
    ∀ c, (trimStr m).head? = some c → isSpaceChar c = false := by
  intro c h
  unfold trimStr at h
  rw [List.head?_reverse] at h
  set Y := (m.dropWhile isSpaceChar).reverse with hY
  have hsuf := List.dropWhile_suffix (l := Y) isSpaceChar
  obtain ⟨pre, hpre⟩ := hsuf
  have hne : Y.dropWhile isSpaceChar ≠ [] := by
    intro hnil
    rw [hnil] at h
    simp at h
  have h2 : Y.getLast? = some c := by
    rw [← hpre, List.getLast?_append_of_ne_nil pre hne]
    exact h
  rw [hY, List.getLast?_reverse] at h2
  have := List.head?_dropWhile_not isSpaceChar m
  rw [h2] at this
  exact this

/-- Claim C3 (amended): `normalizeSlashes` replaces every separator, together
with the whitespace around it, by a single `/`, and trims the string: its
output contains no backslash, never has whitespace adjacent to a `/`, and
starts and ends with non-whitespace.  It does not collapse runs of
separators — `normalizeSlashes("a//b") = "a//b"` (see the counterexample);
that collapse only happens later, inside `parse`. -/
theorem normalizeSlashes_invariants (p : Str) :
    '\\' ∉ normalizeSlashes p ∧
    (normalizeSlashes p).Chain' okPair ∧
    (∀ c, (normalizeSlashes p).head? = some c → isSpaceChar c = false) ∧
    (∀ c, (normalizeSlashes p).getLast? = some c → isSpaceChar c = false) := by
  unfold normalizeSlashes
  refine ⟨?_, ?_, trimStr_head_not_space _, trimStr_getLast_not_space _⟩
  · intro h
    exact (nsScanAux_no_bslash p).1 (trimStr_subset _ h)
  · exact trimStr_chain (nsScanAux_chain p).1

end TS

namespace TS

/-! ### `stableSort` -/

theorem sortLE_iff (l : List α) (cmp : α → α → Int) (i j : Fin l.length) :
    sortLE l cmp i j ↔
      (cmp (l.get i) (l.get j) < 0 ∨
        (cmp (l.get i) (l.get j) = 0 ∧ i.val ≤ j.val)) := by
  unfold sortLE jsOr compareValues
  split_ifs <;> constructor <;> intro h <;> omega

theorem sortLE_total (l : List α) (cmp : α → α → Int)
    (htotal : ∀ a b, cmp a b ≤ 0 ∨ cmp b a ≤ 0)
    (hzero : ∀ a b, cmp a b = 0 → cmp b a = 0) :
    ∀ i j, sortLE l cmp i j ∨ sortLE l cmp j i := by
  intro i j
  rw [sortLE_iff, sortLE_iff]
  rcases lt_trichotomy (cmp (l.get i) (l.get j)) 0 with h | h | h
  · exact Or.inl (Or.inl h)
  · have hy := hzero _ _ h
    rcases Nat.le_total i.val j.val with hij | hij
    · exact Or.inl (Or.inr ⟨h, hij⟩)
    · exact Or.inr (Or.inr ⟨hy, hij⟩)
  · rcases htotal (l.get i) (l.get j) with hx | hy
    · omega
    · rcases lt_or_eq_of_le hy with hy | hy
      · exact Or.inr (Or.inl hy)
      · have := hzero _ _ hy
        omega

theorem sortLE_trans (l : List α) (cmp : α → α → Int)
    (htrans : ∀ a b c, cmp a b ≤ 0 → cmp b c ≤ 0 → cmp a c ≤ 0)
    (hanti : ∀ a b, cmp a b ≤ 0 → cmp b a ≤ 0 → cmp a b = 0)
    (hzero : ∀ a b, cmp a b = 0 → cmp b a = 0) :
    ∀ i j k, sortLE l cmp i j → sortLE l cmp j k → sortLE l cmp i k := by
  intro i j k hij hjk
  rw [sortLE_iff] at hij hjk ⊢
  have hik : cmp (l.get i) (l.get k) ≤ 0 := by
    refine htrans _ (l.get j) _ ?_ ?_
    · rcases hij with h | ⟨h, -⟩ <;> omega
    · rcases hjk with h | ⟨h, -⟩ <;> omega
  rcases hij with hij | ⟨hij0, hijle⟩ <;> rcases hjk with hjk | ⟨hjk0, hjkle⟩
  · left
    rcases lt_or_eq_of_le hik with h | h
    · exact h
    · exfalso
      have hki := hzero _ _ h
      have h1 := htrans (l.get k) (l.get i) (l.get j) (le_of_eq hki) (le_of_lt hij)
      have h2 := hanti (l.get j) (l.get k) (le_of_lt hjk) h1
      omega
  · left
    rcases lt_or_eq_of_le hik with h | h
    · exact h
    · exfalso
      have hki := hzero _ _ h
      have h1 := htrans (l.get j) (l.get k) (l.get i) (le_of_eq hjk0) (le_of_eq hki)
      have h2 := hanti (l.get i) (l.get j) (le_of_lt hij) h1
      omega
  · left
    rcases lt_or_eq_of_le hik with h | h
    · exact h
    · exfalso
      have hki := hzero _ _ h
      have h1 := htrans (l.get k) (l.get i) (l.get j) (le_of_eq hki) (le_of_eq hij0)
      have h2 := hanti (l.get j) (l.get k) (le_of_lt hjk) h1
      omega
  · rcases lt_or_eq_of_le hik with h | h
    · exact Or.inl h
    · exact Or.inr ⟨h, le_trans hijle hjkle⟩

/-- Claim C9 (amended): for a consistent comparator — total, transitive,
antisymmetric-at-zero and with symmetric zeroes — `stableSort` returns a
permutation of the input, ordered by the comparator, in which elements
comparing equal keep their original relative order (the sorted index list is
strictly increasing on comparator-ties).  For an inconsistent comparator the
order is unspecified (`Array.prototype.sort` makes no guarantee), and the
counterexample shows the claim fails as stated "for every comparer". -/
theorem stableSort_spec (l : List α) (cmp : α → α → Int)
    (htotal : ∀ a b, cmp a b ≤ 0 ∨ cmp b a ≤ 0)
    (htrans : ∀ a b c, cmp a b ≤ 0 → cmp b c ≤ 0 → cmp a c ≤ 0)
    (hanti : ∀ a b, cmp a b ≤ 0 → cmp b a ≤ 0 → cmp a b = 0)
    (hzero : ∀ a b, cmp a b = 0 → cmp b a = 0) :
    (stableSort l cmp).Perm l ∧
    (stableSort l cmp).Pairwise (fun a b => cmp a b ≤ 0) ∧
    (sortedIndices l cmp).Pairwise
      (fun i j => cmp (l.get i) (l.get j) = 0 → i.val < j.val) := by
  haveI : IsTotal (Fin l.length) (sortLE l cmp) := ⟨sortLE_total l cmp htotal hzero⟩
  haveI : IsTrans (Fin l.length) (sortLE l cmp) :=
    ⟨sortLE_trans l cmp htrans hanti hzero⟩
  have hperm : (sortedIndices l cmp).Perm (List.finRange l.length) :=
    List.perm_insertionSort _ _
  have hsorted : (sortedIndices l cmp).Pairwise (sortLE l cmp) :=
    List.sorted_insertionSort _ _
  have hnodup : (sortedIndices l cmp).Nodup :=
    List.Perm.nodup hperm.symm (List.nodup_finRange _)
  refine ⟨?_, ?_, ?_⟩
  · have h1 : (stableSort l cmp).Perm ((List.finRange l.length).map l.get) :=
      hperm.map l.get
    rw [List.finRange_map_get l] at h1
    exact h1
  · unfold stableSort
    rw [List.pairwise_map]
    refine hsorted.imp ?_
    intro i j hij
    rw [sortLE_iff] at hij
    rcases hij with h | ⟨h, -⟩ <;> omega
  · refine (List.Pairwise.and hsorted hnodup).imp ?_
    rintro i j ⟨hle, hne⟩ h0
    rw [sortLE_iff] at hle
    have hv : i.val ≠ j.val := fun hv => hne (Fin.ext hv)
    rcases hle with h | ⟨-, hij⟩ <;> omega

/-- Witness for `stableSort_spec` on `[true, false, true]` with `false`
ordered before `true`. -/
theorem stableSort_spec_witness :
    (stableSort [true, false, true]
        (fun a b : Bool => if a = b then 0 else if a then 1 else -1)).Perm
      [true, false, true] ∧
    (stableSort [true, false, true]
        (fun a b : Bool => if a = b then 0 else if a then 1 else -1)).Pairwise
      (fun a b => (if a = b then (0 : Int) else if a then 1 else -1) ≤ 0) ∧
    (sortedIndices [true, false, true]
        (fun a b : Bool => if a = b then 0 else if a then 1 else -1)).Pairwise
      (fun i j => (if [true, false, true].get i = [true, false, true].get j then (0 : Int)
          else if [true, false, true].get i then 1 else -1) = 0 → i.val < j.val) :=
  stableSort_spec [true, false, true]
    (fun a b : Bool => if a = b then 0 else if a then 1 else -1)
    (by decide) (by decide) (by decide) (by decide)

/-- Claim C9, counterexample: with the inconsistent comparator that always
answers `1`, `stableSort` returns `[20, 10]` on `[10, 20]`, which is not
ordered by that comparator. -/
theorem stableSort_counterexample :
    stableSort [10, 20] (fun _ _ : Nat => (1 : Int)) = [20, 10] ∧
    ¬(stableSort [10, 20] (fun _ _ : Nat => (1 : Int))).Pairwise
      (fun _ _ : Nat => (1 : Int) ≤ 0) := by
  constructor
  · decide
  · decide

end TS

namespace TS

/-! ### `CompilerHost.writeFile` outputs -/

theorem sameName_symm (cs : Bool) (a b : Str) : sameName cs a b = sameName cs b a := by
  unfold sameName
  cases cs <;> simp [eq_comm]

theorem sameName_trans {cs : Bool} {a b c : Str}
    (h1 : sameName cs a b = true) (h2 : sameName cs b c = true) :
    sameName cs a c = true := by
  unfold sameName at h1 h2 ⊢
  cases cs <;> simp_all

theorem set_pairwise_of_findIdx (cs : Bool) :
    ∀ (outs : List TextDocument) (i : Nat) (d : TextDocument),
    outs.Pairwise (fun a b => sameName cs a.file b.file = false) →
    outs.findIdx? (fun doc => sameName cs d.file doc.file) = some i →
    (outs.set i d).Pairwise (fun a b => sameName cs a.file b.file = false) := by
  intro outs
  induction outs with
  | nil => intro i d h hf; simp at hf
  | cons x rest ih =>
    intro i d h hf
    rw [List.findIdx?_cons] at hf
    by_cases hx : sameName cs d.file x.file = true
    · rw [if_pos hx] at hf
      have hi : i = 0 := by
        have := Option.some.inj hf
        omega
      subst hi
      rw [List.set_cons_zero]
      rw [List.pairwise_cons] at h ⊢
      refine ⟨?_, h.2⟩
      intro e he
      by_contra hcon
      have he' : sameName cs d.file e.file = true := by simpa using hcon
      have hxd : sameName cs x.file d.file = true := by
        rw [sameName_symm]; exact hx
      have hxe := sameName_trans hxd he'
      have := h.1 e he
      simp_all
    · rw [if_neg hx] at hf
      rw [List.findIdx?_start_succ] at hf
      obtain ⟨j, hj, hij⟩ := Option.map_eq_some'.mp hf
      subst hij
      rw [List.set_cons_succ]
      rw [List.pairwise_cons] at h ⊢
      refine ⟨?_, ih j d h.2 hj⟩
      intro e he
      rcases List.mem_or_eq_of_mem_set he with he | rfl
      · exact h.1 e he
      · by_contra hcon
        have hxd : sameName cs x.file e.file = true := by simpa using hcon
        obtain ⟨hjlt, hpj, -⟩ := List.findIdx?_eq_some_iff_getElem.mp hj
        have hmem : rest[j] ∈ rest := List.getElem_mem hjlt
        have hdy : sameName cs e.file rest[j].file = true := by simpa using hpj
        have hxy := sameName_trans hxd hdy
        have := h.1 _ hmem
        simp_all

theorem writeFileStep_pairwise (cs : Bool) (outs : List TextDocument)
    (p content : Str) (bom : Bool)
    (h : outs.Pairwise (fun a b => sameName cs a.file b.file = false)) :
    (writeFileStep cs outs p content bom).Pairwise
      (fun a b => sameName cs a.file b.file = false) := by
  have hD : writeFileStep cs outs p content bom =
      match outs.findIdx? (fun doc =>
          sameName cs (TextDocument.mk p (if bom then '\uFEFF' :: content else content)).file
            doc.file) with
      | none => outs ++ [TextDocument.mk p (if bom then '\uFEFF' :: content else content)]
      | some i => outs.set i
          (TextDocument.mk p (if bom then '\uFEFF' :: content else content)) := rfl
  rw [hD]
  cases hfind : outs.findIdx? (fun doc =>
      sameName cs (TextDocument.mk p (if bom then '\uFEFF' :: content else content)).file
        doc.file) with
  | none =>
    rw [List.pairwise_append]
    refine ⟨h, List.pairwise_singleton _ _, ?_⟩
    intro a ha b hb
    have hb' : b = TextDocument.mk p (if bom then '\uFEFF' :: content else content) := by
      simpa using hb
    subst hb'
    have := List.findIdx?_eq_none_iff.mp hfind a ha
    rw [sameName_symm]
    simpa using this
  | some i =>
    exact set_pairwise_of_findIdx cs outs i _ h hfind

/-- Claim C10: after any sequence of successful `writeFile` calls the
`outputs` array holds at most one `TextDocument` per file name under
`sameName`: every two distinct entries have non-matching names (a repeated
name replaces the document at its existing index, a new name is appended). -/
theorem runWriteFiles_unique_names (cs : Bool) (steps : List (Str × Str × Bool)) :
    (runWriteFiles cs steps).Pairwise
      (fun a b => sameName cs a.file b.file = false) := by
  suffices h : ∀ (steps : List (Str × Str × Bool)) (outs : List TextDocument),
      outs.Pairwise (fun a b => sameName cs a.file b.file = false) →
      (steps.foldl (fun outs s => writeFileStep cs outs s.1 s.2.1 s.2.2)
        outs).Pairwise (fun a b => sameName cs a.file b.file = false) by
    exact h steps [] (List.Pairwise.nil)
  intro steps
  induction steps with
  | nil => intro outs h; exact h
  | cons s rest ih =>
    intro outs h
    exact ih _ (writeFileStep_pairwise cs outs s.1 s.2.1 s.2.2 h)

end TS

namespace TS

/-! ### Canonical absolute paths: `normalizeSlashes`, `parse`, `reduce` act
trivially on `/c₁/…/cₙ` with plain components -/

theorem dropWhile_eq_self_of_mem {p : Char → Bool} {l : Str}
    (h : ∀ c ∈ l, p c = false) : l.dropWhile p = l := by
  cases l with
  | nil => rfl
  | cons c r => rw [List.dropWhile_cons, h c (List.mem_cons_self c r)]; simp

theorem trimStr_eq_self {l : Str} (h : ∀ c ∈ l, isSpaceChar c = false) :
    trimStr l = l := by
  unfold trimStr
  rw [dropWhile_eq_self_of_mem h,
    dropWhile_eq_self_of_mem (fun c hc => h c (List.mem_reverse.mp hc)),
    List.reverse_reverse]

theorem nsScanAux_eq_self {l : Str}
    (h : ∀ c ∈ l, isSpaceChar c = false ∧ c ≠ '\\') :
    nsScanAux .plain l = l ∧ nsScanAux .afterSep l = l := by
  induction l with
  | nil => exact ⟨rfl, rfl⟩
  | cons c r ih =>
    have hc := h c (List.mem_cons_self c r)
    have ihr := ih (fun d hd => h d (List.mem_cons_of_mem c hd))
    by_cases hsep : isSepChar c = true
    · have hslash : c = '/' := by
        rcases (by simpa [isSepChar] using hsep : c = '/' ∨ c = '\\') with h' | h'
        · exact h'
        · exact absurd h' hc.2
      subst hslash
      constructor
      · rw [ns_plain_sep r hsep, ihr.2]
      · rw [ns_afterSep_sep r hc.1 hsep, ihr.2]
    · have hsep' : isSepChar c = false := by simpa using hsep
      constructor
      · rw [ns_plain_other r hsep' hc.1, ihr.1]
      · rw [ns_afterSep_other r hc.1 hsep', ihr.1]

theorem normalizeSlashes_eq_self {l : Str}
    (h : ∀ c ∈ l, isSpaceChar c = false ∧ c ≠ '\\') :
    normalizeSlashes l = l := by
  unfold normalizeSlashes
  rw [(nsScanAux_eq_self h).1]
  exact trimStr_eq_self (fun c hc => (h c hc).1)

theorem mem_interSlash {c : Char} : ∀ {cs : List Str},
    c ∈ interSlash cs → c = '/' ∨ ∃ s ∈ cs, c ∈ s := by
  intro cs
  induction cs with
  | nil => intro h; simp [interSlash] at h
  | cons x xs ih =>
    intro h
    cases xs with
    | nil =>
      exact Or.inr ⟨x, List.mem_cons_self x [], by simpa [interSlash] using h⟩
    | cons y ys =>
      rw [show interSlash (x :: y :: ys) = x ++ '/' :: interSlash (y :: ys) from rfl] at h
      rcases List.mem_append.mp h with h | h
      · exact Or.inr ⟨x, List.mem_cons_self x _, h⟩
      · rcases List.mem_cons.mp h with h | h
        · exact Or.inl h
        · rcases ih h with h | ⟨s, hs, hcs⟩
          · exact Or.inl h
          · exact Or.inr ⟨s, List.mem_cons_of_mem x hs, hcs⟩

theorem slashPath_char_clean {f : List Str} (hf : ∀ s ∈ f, ∀ c ∈ s, PlainChar c) :
    ∀ c ∈ slashPath f, isSpaceChar c = false ∧ c ≠ '\\' := by
  intro c hc
  unfold slashPath at hc
  rcases List.mem_cons.mp hc with rfl | hc
  · exact ⟨by decide, by decide⟩
  · rcases mem_interSlash hc with rfl | ⟨s, hs, hcs⟩
    · exact ⟨by decide, by decide⟩
    · obtain ⟨h1, h2, -⟩ := hf s hs c hcs
      refine ⟨h2, ?_⟩
      intro hcc
      subst hcc
      simp [isSepChar] at h1

theorem interSlash_head? {s : Str} {rest : List Str} (hs : s ≠ []) :
    (interSlash (s :: rest)).head? = s.head? := by
  cases rest with
  | nil => rfl
  | cons y ys =>
    rw [show interSlash (s :: y :: ys) = s ++ '/' :: interSlash (y :: ys) from rfl]
    exact List.head?_append_of_ne_nil _ hs

theorem rootMatch_slashPath {f : List Str}
    (hf : ∀ s ∈ f, s ≠ [] ∧ ∀ c ∈ s, PlainChar c) :
    rootMatch (slashPath f) = some 1 := by
  have halt1 : alt1Len (slashPath f) = some 1 := by
    unfold slashPath
    rw [show alt1Len ('/' :: interSlash f) =
        some (match interSlash f with
          | d :: r2 =>
            if isSepChar d then
              2 + (match lazyDotSep r2 with
                | some k => k + (match lazyDotSep (r2.drop k) with
                  | some m => m
                  | none => 0)
                | none => 0)
            else 1
          | [] => 1) from rfl]
    cases hif : interSlash f with
    | nil => rfl
    | cons d r2 =>
      have hd : isSepChar d = false := by
        cases f with
        | nil => simp [interSlash] at hif
        | cons s rest =>
          obtain ⟨hsne, hsp⟩ := hf s (List.mem_cons_self s rest)
          obtain ⟨c0, s', rfl⟩ := List.exists_cons_of_ne_nil hsne
          have hh : (interSlash ((c0 :: s') :: rest)).head? = (c0 :: s').head? :=
            interSlash_head? (by simp)
          rw [hif] at hh
          have hdc : d = c0 := by simpa using hh
          subst hdc
          exact (hsp d (List.mem_cons_self d s')).1
      show some (if isSepChar d = true then
          2 + (match lazyDotSep r2 with
            | some k => k + (match lazyDotSep (r2.drop k) with
              | some m => m
              | none => 0)
            | none => 0)
        else 1) = some 1
      rw [hd]
      simp
  unfold rootMatch
  rw [halt1]
  rfl

theorem isAbsolute_slashPath {f : List Str}
    (hf : ∀ s ∈ f, s ≠ [] ∧ ∀ c ∈ s, PlainChar c) :
    isAbsolute (slashPath f) = true := by
  unfold isAbsolute
  rw [rootMatch_slashPath hf]
  rfl

theorem getRootLength_slashPath {f : List Str}
    (hf : ∀ s ∈ f, s ≠ [] ∧ ∀ c ∈ s, PlainChar c) :
    getRootLength (slashPath f) = 1 := by
  unfold getRootLength
  rw [rootMatch_slashPath hf]
  rfl

end TS

namespace TS

theorem splitAux_false_noSlash {x : Str} (hx : ∀ c ∈ x, c ≠ '/') :
    splitAux false x = [x] := by
  induction x with
  | nil => rfl
  | cons c r ih =>
    have hr := ih (fun d hd => hx d (List.mem_cons_of_mem c hd))
    exact splitAux_cons_of_ne false c r r [] (hx c (List.mem_cons_self c r)) hr

theorem splitAux_true_eq_false {l : Str} (h : l.head? ≠ some '/') :
    splitAux true l = splitAux false l := by
  cases l with
  | nil => rfl
  | cons c r =>
    have hc : ¬c = '/' := fun hcc => h (by rw [hcc]; rfl)
    cases hs : splitAux false r with
    | nil => exact absurd hs (splitAux_ne_nil false r)
    | cons p ps =>
      rw [splitAux_cons_of_ne true c r p ps hc hs,
        splitAux_cons_of_ne false c r p ps hc hs]

theorem splitAux_sep_append {x : Str} (z : Str) (hx : ∀ c ∈ x, c ≠ '/')
    (hz : z.head? ≠ some '/') :
    splitAux false (x ++ '/' :: z) = x :: splitAux false z := by
  induction x with
  | nil =>
    rw [List.nil_append, splitAux_false_slash, splitAux_true_eq_false hz]
  | cons c x' ih =>
    have hx' := ih (fun d hd => hx d (List.mem_cons_of_mem c hd))
    cases hs : splitAux false z with
    | nil => exact absurd hs (splitAux_ne_nil false z)
    | cons p ps =>
      rw [hs] at hx'
      have := splitAux_cons_of_ne false c (x' ++ '/' :: z) x' (p :: ps)
        (hx c (List.mem_cons_self c x')) hx'
      rw [List.cons_append, this]

theorem interSlash_noSlash_head {f : List Str}
    (hf : ∀ s ∈ f, s ≠ [] ∧ ∀ c ∈ s, c ≠ '/') (hne : f ≠ []) :
    (interSlash f).head? ≠ some '/' := by
  cases f with
  | nil => exact absurd rfl hne
  | cons s rest =>
    obtain ⟨hsne, hsp⟩ := hf s (List.mem_cons_self s rest)
    rw [interSlash_head? hsne]
    obtain ⟨c0, s', rfl⟩ := List.exists_cons_of_ne_nil hsne
    intro h
    exact hsp c0 (List.mem_cons_self c0 s') (by simpa using h)

theorem splitAux_interSlash {f : List Str}
    (hf : ∀ s ∈ f, s ≠ [] ∧ ∀ c ∈ s, c ≠ '/') (hne : f ≠ []) :
    splitAux false (interSlash f) = f := by
  induction f with
  | nil => exact absurd rfl hne
  | cons s rest ih =>
    obtain ⟨hsne, hsp⟩ := hf s (List.mem_cons_self s rest)
    cases rest with
    | nil =>
      rw [show interSlash [s] = s from rfl]
      exact splitAux_false_noSlash hsp
    | cons t rest' =>
      rw [show interSlash (s :: t :: rest') = s ++ '/' :: interSlash (t :: rest') from rfl]
      rw [splitAux_sep_append _ hsp
        (interSlash_noSlash_head (fun u hu => hf u (List.mem_cons_of_mem s hu)) (by simp))]
      rw [ih (fun u hu => hf u (List.mem_cons_of_mem s hu)) (by simp)]

theorem map_trimStr_eq_self {f : List Str}
    (hf : ∀ s ∈ f, ∀ c ∈ s, isSpaceChar c = false) : f.map trimStr = f := by
  induction f with
  | nil => rfl
  | cons s rest ih =>
    rw [List.map_cons, trimStr_eq_self (hf s (List.mem_cons_self s rest)),
      ih (fun u hu => hf u (List.mem_cons_of_mem s hu))]

theorem parse_slashPath {f : List Str}
    (hf : ∀ s ∈ f, s ≠ [] ∧ ∀ c ∈ s, PlainChar c) :
    parse (slashPath f) = ['/'] :: f := by
  have hroot := getRootLength_slashPath hf
  have hchars : ∀ s ∈ f, s ≠ [] ∧ ∀ c ∈ s, c ≠ '/' := by
    intro s hs
    obtain ⟨h1, h2⟩ := hf s hs
    refine ⟨h1, fun c hc hcc => ?_⟩
    have := (h2 c hc).1
    subst hcc
    simp [isSepChar] at this
  have hbody : parse (slashPath f) =
      (slashPath f).take (getRootLength (slashPath f)) ::
        (if (splitAux false ((slashPath f).drop (getRootLength (slashPath f)))).getLast?
            = some [] then
          (splitAux false ((slashPath f).drop (getRootLength (slashPath f)))).dropLast
        else
          splitAux false ((slashPath f).drop (getRootLength (slashPath f)))).map
          trimStr := rfl
  rw [hbody, hroot]
  have htake : (slashPath f).take 1 = ['/'] := rfl
  have hdrop : (slashPath f).drop 1 = interSlash f := rfl
  rw [htake, hdrop]
  cases hfe : f with
  | nil =>
    rw [show interSlash [] = [] from rfl]
    rfl
  | cons s rest =>
    rw [← hfe]
    have hne : f ≠ [] := by rw [hfe]; simp
    rw [splitAux_interSlash hchars hne]
    have hlast : f.getLast? ≠ some [] := by
      intro h
      have hmem := List.mem_of_mem_getLast? h
      exact (hchars [] hmem).1 rfl
    rw [if_neg hlast]
    rw [map_trimStr_eq_self (fun s hs c hc => (hf s hs).2 c hc |>.2.1)]

theorem reduceAux_cons (acc : List Str) (c : Str) (cs : List Str) :
    reduceAux acc (c :: cs) =
      if c = ['.'] then reduceAux acc cs
      else if c = ['.', '.'] ∧ acc ≠ [] ∧ acc.head? ≠ some ['.', '.'] then
        reduceAux acc.tail cs
      else reduceAux (c :: acc) cs := rfl

theorem reduceAux_pushes {cs : List Str}
    (h : ∀ s ∈ cs, s ≠ ['.'] ∧ s ≠ ['.', '.']) :
    ∀ acc rest, reduceAux acc (cs ++ rest) = reduceAux (cs.reverse ++ acc) rest := by
  induction cs with
  | nil => intro acc rest; simp
  | cons c cs' ih =>
    intro acc rest
    obtain ⟨h1, h2⟩ := h c (List.mem_cons_self c cs')
    rw [List.cons_append, reduceAux_cons, if_neg h1, if_neg (by simp [h2])]
    rw [ih (fun s hs => h s (List.mem_cons_of_mem c hs)) (c :: acc) rest]
    simp

theorem reduceAux_pops : ∀ (m : Nat) (g acc0 rest : List Str), m ≤ g.length →
    (∀ s ∈ g, s ≠ ['.', '.']) →
    reduceAux (g ++ acc0) (List.replicate m ['.', '.'] ++ rest) =
      reduceAux (g.drop m ++ acc0) rest := by
  intro m
  induction m with
  | zero => intro g acc0 rest _ _; simp
  | succ m ih =>
    intro g acc0 rest hm hg
    obtain ⟨a, g', rfl⟩ : ∃ a g', g = a :: g' := by
      cases g with
      | nil => simp at hm
      | cons a g' => exact ⟨a, g', rfl⟩
    rw [List.replicate_succ]
    simp only [List.cons_append]
    rw [reduceAux_cons,
      if_neg (by decide : ¬(['.', '.'] : Str) = ['.']),
      if_pos ⟨rfl, by simp, by
        simpa using hg a (List.mem_cons_self a g')⟩]
    rw [show (a :: (g' ++ acc0)).tail = g' ++ acc0 from rfl]
    rw [ih g' acc0 rest (by simpa using hm)
      (fun s hs => hg s (List.mem_cons_of_mem a hs))]
    rfl

end TS

namespace TS

theorem uint32_lt_iff (a b : UInt32) : a < b ↔ a.toNat < b.toNat := by
  simp [UInt32.lt_def, BitVec.lt_def, UInt32.toNat]

theorem char_trichotomy (c d : Char) : c = d ∨ c.val < d.val ∨ d.val < c.val := by
  rcases Nat.lt_trichotomy c.val.toNat d.val.toNat with h | h | h
  · exact Or.inr (Or.inl ((uint32_lt_iff _ _).mpr h))
  · exact Or.inl (Char.eq_of_val_eq (UInt32.ext h))
  · exact Or.inr (Or.inr ((uint32_lt_iff _ _).mpr h))

theorem strLt_trichotomy : ∀ a b : Str, a = b ∨ strLt a b = true ∨ strLt b a = true := by
  intro a
  induction a with
  | nil =>
    intro b
    cases b with
    | nil => exact Or.inl rfl
    | cons c cs => exact Or.inr (Or.inl rfl)
  | cons c cs ih =>
    intro b
    cases b with
    | nil => exact Or.inr (Or.inr rfl)
    | cons d ds =>
      have hirr : ¬c.val < c.val := by
        rw [uint32_lt_iff]; omega
      rcases char_trichotomy c d with h | h | h
      · subst h
        rcases ih ds with h' | h' | h'
        · exact Or.inl (by rw [h'])
        · refine Or.inr (Or.inl ?_)
          rw [strLt, if_neg hirr, if_neg hirr]
          exact h'
        · refine Or.inr (Or.inr ?_)
          rw [strLt, if_neg hirr, if_neg hirr]
          exact h'
      · refine Or.inr (Or.inl ?_)
        rw [strLt, if_pos h]
      · refine Or.inr (Or.inr ?_)
        rw [strLt, if_pos h]

theorem compareStrings_eq_zero_iff (a b : Str) :
    compareStrings a b false = 0 ↔ a = b := by
  constructor
  · intro h
    by_contra hne
    have h2 : (if strLt a b then (-1 : Int) else if strLt b a then 1 else 0) = 0 := by
      unfold compareStrings at h
      rw [if_neg hne] at h
      simpa using h
    rcases strLt_trichotomy a b with h' | h' | h'
    · exact hne h'
    · rw [if_pos h'] at h2; omega
    · by_cases hab : strLt a b = true
      · rw [if_pos hab] at h2; omega
      · rw [if_neg (by simp [hab]), if_pos h'] at h2; omega
  · intro h
    subst h
    unfold compareStrings
    simp

theorem commonStart_cons_eq {a : Str} {as bs : List Str} :
    commonStart false (a :: as) (a :: bs) = commonStart false as bs + 1 := by
  rw [commonStart, if_neg]
  simp [compareStrings_eq_zero_iff]

theorem commonStart_le_left : ∀ (f t : List Str),
    commonStart false f t ≤ f.length := by
  intro f
  induction f with
  | nil => intro t; cases t <;> simp [commonStart]
  | cons a as ih =>
    intro t
    cases t with
    | nil => simp [commonStart]
    | cons b bs =>
      rw [commonStart]
      by_cases h : compareStrings a b false ≠ 0
      · rw [if_pos h]; simp
      · rw [if_neg h]
        have := ih bs
        simp only [List.length_cons]
        omega

theorem commonStart_le_right : ∀ (f t : List Str),
    commonStart false f t ≤ t.length := by
  intro f
  induction f with
  | nil => intro t; cases t <;> simp [commonStart]
  | cons a as ih =>
    intro t
    cases t with
    | nil => simp [commonStart]
    | cons b bs =>
      rw [commonStart]
      by_cases h : compareStrings a b false ≠ 0
      · rw [if_pos h]; simp
      · rw [if_neg h]
        have := ih bs
        simp only [List.length_cons]
        omega

theorem commonStart_take_eq : ∀ (f t : List Str),
    f.take (commonStart false f t) = t.take (commonStart false f t) := by
  intro f
  induction f with
  | nil => intro t; cases t <;> simp [commonStart]
  | cons a as ih =>
    intro t
    cases t with
    | nil => simp [commonStart]
    | cons b bs =>
      rw [commonStart]
      by_cases h : compareStrings a b false ≠ 0
      · rw [if_pos h]; simp
      · rw [if_neg h]
        have hab : a = b := by
          by_contra hne
          exact h ((not_iff_not.mpr (compareStrings_eq_zero_iff a b)).mpr hne)
        subst hab
        simp only [List.take_succ_cons]
        rw [ih bs]

end TS

namespace TS

theorem alt1Len_cons (c : Char) (r : Str) :
    alt1Len (c :: r) =
      if isSepChar c then
        some (match r with
          | d :: r2 =>
            if isSepChar d then
              2 + (match lazyDotSep r2 with
                | some k => k + (match lazyDotSep (r2.drop k) with
                  | some m => m
                  | none => 0)
                | none => 0)
            else 1
          | [] => 1)
      else none := rfl

theorem alt2Len_cons (a b : Char) (r : Str) :
    alt2Len (a :: b :: r) =
      if a.isAlpha ∧ b = ':' then
        some (2 + (match r with
          | c :: _ => if isSepChar c then 1 else 0
          | [] => 0))
      else none := rfl

theorem alt1Len_none_of_head {l : Str}
    (h : ∀ c, l.head? = some c → isSepChar c = false) : alt1Len l = none := by
  cases l with
  | nil => rfl
  | cons c r =>
    rw [alt1Len_cons]
    rw [if_neg (by simp [h c rfl])]

theorem alt2Len_some_colon {l : Str} {k : Nat} (h : alt2Len l = some k) : ':' ∈ l := by
  cases l with
  | nil => simp [alt2Len] at h
  | cons a r =>
    cases r with
    | nil => simp [alt2Len] at h
    | cons b r' =>
      rw [alt2Len_cons] at h
      by_cases hc : a.isAlpha = true ∧ b = ':'
      · rw [hc.2]
        exact List.mem_cons_of_mem a (List.mem_cons_self ':' r')
      · rw [if_neg hc] at h
        simp at h

theorem alt3Len_some_colon {l : Str} {k : Nat} (h : alt3Len l = some k) : ':' ∈ l := by
  unfold alt3Len at h
  by_cases hw : (l.takeWhile isWordChar).isEmpty
  · rw [if_pos hw] at h
    simp at h
  · rw [if_neg hw] at h
    cases hd : l.drop (l.takeWhile isWordChar).length with
    | nil => rw [hd] at h; simp at h
    | cons c1 r1 =>
      rw [hd] at h
      by_cases h1 : c1 = ':'
      · subst h1
        have : ':' ∈ l.drop (l.takeWhile isWordChar).length := by
          rw [hd]; exact List.mem_cons_self ':' r1
        exact List.mem_of_mem_drop this
      · exfalso
        cases r1 with
        | nil => simp at h
        | cons c2 r2 =>
          cases r2 with
          | nil =>
            rcases eq_or_ne c1 ':' with h' | h'
            · exact h1 h'
            · simp [h'] at h
          | cons c3 r3 =>
            rcases eq_or_ne c1 ':' with h' | h'
            · exact h1 h'
            · simp [h'] at h

theorem isAbsolute_eq_false_of {l : Str}
    (hhead : ∀ c, l.head? = some c → isSepChar c = false) (hcolon : ':' ∉ l) :
    isAbsolute l = false := by
  unfold isAbsolute rootMatch
  rw [alt1Len_none_of_head hhead]
  cases h2 : alt2Len l with
  | some k => exact absurd (alt2Len_some_colon h2) hcolon
  | none =>
    cases h3 : alt3Len l with
    | some k => exact absurd (alt3Len_some_colon h3) hcolon
    | none => simp [Option.orElse, h2, h3]

theorem interSlash_append {f g : List Str} (hf : f ≠ []) (hg : g ≠ []) :
    interSlash (f ++ g) = interSlash f ++ '/' :: interSlash g := by
  induction f with
  | nil => exact absurd rfl hf
  | cons s rest ih =>
    cases rest with
    | nil =>
      cases g with
      | nil => exact absurd rfl hg
      | cons u us =>
        rw [show interSlash [s] = s from rfl]
        rfl
    | cons t rest' =>
      rw [List.cons_append,
        show interSlash (s :: (t :: rest' ++ g)) =
          s ++ '/' :: interSlash (t :: rest' ++ g) by
            cases rest' <;> cases g <;> rfl,
        ih (by simp),
        show interSlash (s :: t :: rest') = s ++ '/' :: interSlash (t :: rest') from rfl]
      simp

theorem interSlash_ne_nil {f : List Str} (hne : f ≠ [])
    (hf : ∀ s ∈ f, s ≠ []) : interSlash f ≠ [] := by
  cases f with
  | nil => exact absurd rfl hne
  | cons s rest =>
    cases rest with
    | nil => exact hf s (List.mem_cons_self s [])
    | cons t rest' =>
      rw [show interSlash (s :: t :: rest') = s ++ '/' :: interSlash (t :: rest') from rfl]
      simp

theorem interSlash_getLast_not_sep : ∀ {f : List Str},
    (∀ s ∈ f, s ≠ [] ∧ ∀ c ∈ s, isSepChar c = false) → f ≠ [] →
    ∀ c, (interSlash f).getLast? = some c → isSepChar c = false := by
  intro f
  induction f with
  | nil => intro _ hne; exact absurd rfl hne
  | cons s rest ih =>
    intro hf hne c hc
    cases rest with
    | nil =>
      have hcs : c ∈ s := List.mem_of_mem_getLast? hc
      exact (hf s (List.mem_cons_self s [])).2 c hcs
    | cons t rest' =>
      rw [show interSlash (s :: t :: rest') = s ++ '/' :: interSlash (t :: rest') from rfl]
        at hc
      rw [List.getLast?_append_of_ne_nil _ (by simp)] at hc
      have hX : interSlash (t :: rest') ≠ [] :=
        interSlash_ne_nil (by simp) (fun u hu => (hf u (List.mem_cons_of_mem s hu)).1)
      obtain ⟨c0, s0, hX2⟩ := List.exists_cons_of_ne_nil hX
      rw [hX2, List.getLast?_cons_cons] at hc
      rw [← hX2] at hc
      exact ih (fun u hu => hf u (List.mem_cons_of_mem s hu)) (by simp) c hc

end TS

namespace TS

theorem hasTrailingSeperator_eq_false_of {p : Str}
    (h : ∀ c, p.getLast? = some c → isSepChar c = false) :
    hasTrailingSeperator p = false := by
  cases hg : p.getLast? with
  | none => simp [hasTrailingSeperator, hg]
  | some c =>
    simp only [hasTrailingSeperator, hg]
    exact h c hg

theorem slashPath_getLast_not_sep {t : List Str}
    (ht : ∀ s ∈ t, s ≠ [] ∧ ∀ c ∈ s, isSepChar c = false) (hne : t ≠ []) :
    ∀ c, (slashPath t).getLast? = some c → isSepChar c = false := by
  intro c hc
  unfold slashPath at hc
  have hX : interSlash t ≠ [] := interSlash_ne_nil hne (fun s hs => (ht s hs).1)
  obtain ⟨c0, s0, hX2⟩ := List.exists_cons_of_ne_nil hX
  rw [hX2, List.getLast?_cons_cons, ← hX2] at hc
  exact interSlash_getLast_not_sep ht hne c hc

theorem reduce_no_dots {c0 : Str} {cs : List Str}
    (h : ∀ s ∈ cs, s ≠ ['.'] ∧ s ≠ ['.', '.']) : reduce (c0 :: cs) = c0 :: cs := by
  have hp := reduceAux_pushes h [c0] []
  rw [List.append_nil] at hp
  rw [show reduce (c0 :: cs) = reduceAux [c0] cs from rfl, hp]
  rw [show reduceAux (cs.reverse ++ [c0]) [] = (cs.reverse ++ [c0]).reverse from rfl]
  simp

theorem normalize_slashPath {t : List Str} (ht : ∀ s ∈ t, PlainComp s) :
    normalize (slashPath t) = slashPath t := by
  have htc : ∀ s ∈ t, s ≠ [] ∧ ∀ c ∈ s, PlainChar c :=
    fun s hs => ⟨(ht s hs).1, (ht s hs).2.2.2⟩
  have hns : normalizeSlashes (slashPath t) = slashPath t :=
    normalizeSlashes_eq_self (slashPath_char_clean (fun s hs => (htc s hs).2))
  unfold normalize
  rw [hns, parse_slashPath htc,
    reduce_no_dots (fun s hs => ⟨(ht s hs).2.1, (ht s hs).2.2.1⟩)]
  cases hte : t with
  | nil => rw [if_neg (by simp)]; rfl
  | cons s0 rest0 =>
    rw [← hte]
    have htrail : hasTrailingSeperator (slashPath t) = false := by
      refine hasTrailingSeperator_eq_false_of
        (slashPath_getLast_not_sep ?_ (by rw [hte]; simp))
      intro s hs
      refine ⟨(htc s hs).1, fun c hc => ((htc s hs).2 c hc).1⟩
    rw [if_neg (by simp [htrail])]
    rfl

theorem combine_single (p r : Str) :
    combine p [r] =
      (if normalizeSlashes r = [] then normalizeSlashes p
       else if normalizeSlashes p = [] ∨ isAbsolute (normalizeSlashes r) = true then
         normalizeSlashes r
       else if hasTrailingSeperator (normalizeSlashes p) = true then
         normalizeSlashes p ++ normalizeSlashes r
       else normalizeSlashes p ++ '/' :: normalizeSlashes r) := rfl

theorem reduce_dotdot_chain (f : List Str) (k : Nat) (d : List Str)
    (hk : k ≤ f.length)
    (hf : ∀ s ∈ f, s ≠ ['.'] ∧ s ≠ ['.', '.'])
    (hd : ∀ s ∈ d, s ≠ ['.'] ∧ s ≠ ['.', '.']) :
    reduce (['/'] :: (f ++ (List.replicate (f.length - k) ['.', '.'] ++ d))) =
      ['/'] :: (f.take k ++ d) := by
  rw [show reduce (['/'] :: (f ++ (List.replicate (f.length - k) ['.', '.'] ++ d))) =
    reduceAux [['/']] (f ++ (List.replicate (f.length - k) ['.', '.'] ++ d)) from rfl]
  rw [reduceAux_pushes hf]
  rw [reduceAux_pops (f.length - k) f.reverse [['/']] d
    (by simpa using Nat.sub_le f.length k)
    (fun s hs => (hf s (List.mem_reverse.mp hs)).2)]
  have hfin := reduceAux_pushes hd (f.reverse.drop (f.length - k) ++ [['/']]) []
  rw [List.append_nil] at hfin
  rw [hfin]
  rw [show reduceAux (d.reverse ++ (f.reverse.drop (f.length - k) ++ [['/']])) [] =
    (d.reverse ++ (f.reverse.drop (f.length - k) ++ [['/']])).reverse from rfl]
  rw [List.drop_reverse]
  have hlen : f.length - (f.length - k) = k := by omega
  rw [hlen]
  simp

end TS

namespace TS

/-- Claim C1 (amended): for absolute paths in canonical POSIX form — a leading
`/` followed by components that are nonempty, are not `.` or `..`, and contain
no separators, whitespace or colons — and with `ignoreCase = false`,
`resolve(from, relative(from, to, false))` equals `normalize(to)`.  In general
the equation fails: a trailing separator on `to` (see the counterexample),
backslash-separated inputs, or case-differing components under
`ignoreCase = true` all break it. -/
theorem resolve_relative_roundtrip (f t : List Str)
    (hf : ∀ s ∈ f, PlainComp s) (ht : ∀ s ∈ t, PlainComp s) :
    ∃ r, relative (slashPath f) (slashPath t) false = Except.ok r ∧
      resolve (slashPath f) [r] = normalize (slashPath t) := by
  have hfc : ∀ s ∈ f, s ≠ [] ∧ ∀ c ∈ s, PlainChar c :=
    fun s hs => ⟨(hf s hs).1, (hf s hs).2.2.2⟩
  have htc : ∀ s ∈ t, s ≠ [] ∧ ∀ c ∈ s, PlainChar c :=
    fun s hs => ⟨(ht s hs).1, (ht s hs).2.2.2⟩
  have habs_f : isAbsolute (slashPath f) = true := isAbsolute_slashPath hfc
  have habs_t : isAbsolute (slashPath t) = true := isAbsolute_slashPath htc
  have hred_f : reduce (['/'] :: f) = ['/'] :: f :=
    reduce_no_dots (fun s hs => ⟨(hf s hs).2.1, (hf s hs).2.2.1⟩)
  have hred_t : reduce (['/'] :: t) = ['/'] :: t :=
    reduce_no_dots (fun s hs => ⟨(ht s hs).2.1, (ht s hs).2.2.1⟩)
  have hk1 : commonStart false f t ≤ f.length := commonStart_le_left f t
  have hk2 : commonStart false f t ≤ t.length := commonStart_le_right f t
  have htake : f.take (commonStart false f t) = t.take (commonStart false f t) :=
    commonStart_take_eq f t
  have hrel : relative (slashPath f) (slashPath t) false =
      Except.ok (format ([] ::
        (List.replicate (f.length - commonStart false f t) ['.', '.'] ++
          t.drop (commonStart false f t)))) := by
    unfold relative
    rw [if_neg (by simp [habs_f]), if_neg (by simp [habs_t])]
    rw [parse_slashPath hfc, parse_slashPath htc, hred_f, hred_t]
    simp only [commonStart_cons_eq]
    rw [if_neg (by omega)]
    have e1 : (['/'] :: f : List Str).length - (commonStart false f t + 1) =
        f.length - commonStart false f t := by
      simp only [List.length_cons]
      omega
    rw [List.drop_succ_cons, e1]
  refine ⟨_, hrel, ?_⟩
  have hcomps_el : ∀ s ∈ List.replicate (f.length - commonStart false f t) ['.', '.'] ++
      t.drop (commonStart false f t), s ≠ [] ∧ ∀ c ∈ s, PlainChar c := by
    intro s hs
    rcases List.mem_append.mp hs with hs | hs
    · have hse := List.eq_of_mem_replicate hs
      subst hse
      refine ⟨by simp, ?_⟩
      intro c hc
      have : c = '.' := by
        rcases List.mem_cons.mp hc with h | h
        · exact h
        · simpa using h
      subst this
      exact ⟨by decide, by decide, by decide⟩
    · exact htc s (List.mem_of_mem_drop hs)
  by_cases hempty : List.replicate (f.length - commonStart false f t) ['.', '.'] ++
      t.drop (commonStart false f t) = []
  · have hdrop0 : t.drop (commonStart false f t) = [] := (List.append_eq_nil.mp hempty).2
    have hrep0 : f.length - commonStart false f t = 0 := by
      have := (List.append_eq_nil.mp hempty).1
      simpa using this
    have hkf : commonStart false f t = f.length := by omega
    have hkt : commonStart false f t = t.length := by
      have := List.drop_eq_nil_iff_le.mp hdrop0
      omega
    have hft : f = t := by
      have h1 : f.take (commonStart false f t) = f := by
        rw [hkf]; exact List.take_length f
      have h2 : t.take (commonStart false f t) = t := by
        rw [hkt]; exact List.take_length t
      rw [← h1, htake, h2]
    rw [hempty]
    rw [show resolve (slashPath f) [format ([] :: ([] : List Str))] =
      normalize (combine (slashPath f) [format ([] :: ([] : List Str))]) from rfl]
    rw [combine_single]
    rw [if_pos (show normalizeSlashes (format ([] :: ([] : List Str))) = [] from rfl)]
    rw [normalizeSlashes_eq_self (slashPath_char_clean (fun s hs => (hfc s hs).2))]
    rw [hft]
  · have hrel_clean : ∀ c ∈ interSlash (List.replicate
        (f.length - commonStart false f t) ['.', '.'] ++
        t.drop (commonStart false f t)),
        isSpaceChar c = false ∧ c ≠ '\\' ∧ c ≠ ':' := by
      intro c hc
      rcases mem_interSlash hc with rfl | ⟨s, hs, hcs⟩
      · exact ⟨by decide, by decide, by decide⟩
      · obtain ⟨h1, h2, h3⟩ := (hcomps_el s hs).2 c hcs
        refine ⟨h2, ?_, h3⟩
        intro hcc
        subst hcc
        simp [isSepChar] at h1
    have hns_rel : normalizeSlashes (interSlash (List.replicate
        (f.length - commonStart false f t) ['.', '.'] ++
        t.drop (commonStart false f t))) = interSlash (List.replicate
        (f.length - commonStart false f t) ['.', '.'] ++
        t.drop (commonStart false f t)) :=
      normalizeSlashes_eq_self (fun c hc => ⟨(hrel_clean c hc).1, (hrel_clean c hc).2.1⟩)
    have hrelne : interSlash (List.replicate
        (f.length - commonStart false f t) ['.', '.'] ++
        t.drop (commonStart false f t)) ≠ [] :=
      interSlash_ne_nil hempty (fun s hs => (hcomps_el s hs).1)
    have habs_rel : isAbsolute (interSlash (List.replicate
        (f.length - commonStart false f t) ['.', '.'] ++
        t.drop (commonStart false f t))) = false := by
      refine isAbsolute_eq_false_of ?_ ?_
      · intro c hc
        cases hcomp2 : List.replicate (f.length - commonStart false f t) ['.', '.'] ++
            t.drop (commonStart false f t) with
        | nil => exact absurd hcomp2 hempty
        | cons s rest =>
          rw [hcomp2] at hc
          have hsel := hcomps_el s (by rw [hcomp2]; exact List.mem_cons_self s rest)
          rw [interSlash_head? hsel.1] at hc
          have hcs : c ∈ s := List.mem_of_mem_head? hc
          exact (hsel.2 c hcs).1
      · intro hc
        exact (hrel_clean ':' hc).2.2 rfl
    have hns_f : normalizeSlashes (slashPath f) = slashPath f :=
      normalizeSlashes_eq_self (slashPath_char_clean (fun s hs => (hfc s hs).2))
    have hcomb : combine (slashPath f) [interSlash (List.replicate
        (f.length - commonStart false f t) ['.', '.'] ++
        t.drop (commonStart false f t))] = slashPath (f ++ (List.replicate
        (f.length - commonStart false f t) ['.', '.'] ++
        t.drop (commonStart false f t))) := by
      rw [combine_single, hns_rel, hns_f]
      rw [if_neg hrelne]
      rw [if_neg (by
        simp only [habs_rel, slashPath]
        simp)]
      cases hfe : f with
      | nil =>
        rw [if_pos (by decide : hasTrailingSeperator (slashPath ([] : List Str)) = true)]
        rw [show slashPath ([] : List Str) = ['/'] from rfl]
        rfl
      | cons s0 rest0 =>
        rw [← hfe]
        have htrail : hasTrailingSeperator (slashPath f) = false := by
          refine hasTrailingSeperator_eq_false_of
            (slashPath_getLast_not_sep ?_ (by rw [hfe]; simp))
          intro s hs
          exact ⟨(hfc s hs).1, fun c hc => ((hfc s hs).2 c hc).1⟩
        rw [if_neg (by simp [htrail])]
        unfold slashPath
        rw [interSlash_append (by rw [hfe]; simp) hempty]
        simp
    rw [show resolve (slashPath f) [format ([] :: (List.replicate
        (f.length - commonStart false f t) ['.', '.'] ++
        t.drop (commonStart false f t)))] =
      normalize (combine (slashPath f) [format ([] :: (List.replicate
        (f.length - commonStart false f t) ['.', '.'] ++
        t.drop (commonStart false f t)))]) from rfl]
    rw [show format ([] :: (List.replicate
        (f.length - commonStart false f t) ['.', '.'] ++
        t.drop (commonStart false f t))) = interSlash (List.replicate
        (f.length - commonStart false f t) ['.', '.'] ++
        t.drop (commonStart false f t)) from rfl]
    rw [hcomb]
    have hcomb_el : ∀ s ∈ f ++ (List.replicate
        (f.length - commonStart false f t) ['.', '.'] ++
        t.drop (commonStart false f t)), s ≠ [] ∧ ∀ c ∈ s, PlainChar c := by
      intro s hs
      rcases List.mem_append.mp hs with hs | hs
      · exact hfc s hs
      · exact hcomps_el s hs
    have hns_comb : normalizeSlashes (slashPath (f ++ (List.replicate
        (f.length - commonStart false f t) ['.', '.'] ++
        t.drop (commonStart false f t)))) = slashPath (f ++ (List.replicate
        (f.length - commonStart false f t) ['.', '.'] ++
        t.drop (commonStart false f t))) :=
      normalizeSlashes_eq_self (slashPath_char_clean (fun s hs => (hcomb_el s hs).2))
    have hreduce_comb : reduce (['/'] :: (f ++ (List.replicate
        (f.length - commonStart false f t) ['.', '.'] ++
        t.drop (commonStart false f t)))) = ['/'] :: t := by
      rw [reduce_dotdot_chain f (commonStart false f t) (t.drop (commonStart false f t))
        hk1 (fun s hs => ⟨(hf s hs).2.1, (hf s hs).2.2.1⟩)
        (fun s hs =>
          ⟨(ht s (List.mem_of_mem_drop hs)).2.1, (ht s (List.mem_of_mem_drop hs)).2.2.1⟩)]
      rw [htake, List.take_append_drop]
    have hL : normalize (slashPath (f ++ (List.replicate
        (f.length - commonStart false f t) ['.', '.'] ++
        t.drop (commonStart false f t)))) = slashPath t := by
      unfold normalize
      rw [hns_comb, parse_slashPath hcomb_el, hreduce_comb]
      have htrail2 : hasTrailingSeperator (slashPath (f ++ (List.replicate
          (f.length - commonStart false f t) ['.', '.'] ++
          t.drop (commonStart false f t)))) = false := by
        refine hasTrailingSeperator_eq_false_of
          (slashPath_getLast_not_sep ?_ (by
            intro hz
            rcases List.append_eq_nil.mp hz with ⟨-, hz2⟩
            exact hempty hz2))
        intro s hs
        exact ⟨(hcomb_el s hs).1, fun c hc => ((hcomb_el s hs).2 c hc).1⟩
      rw [if_neg (by simp [htrail2])]
      rfl
    rw [hL, normalize_slashPath ht]

/-- Witness for the amended C1 theorem at `from = /a/b`, `to = /a/c`. -/
theorem resolve_relative_roundtrip_witness :
    ∃ r, relative (slashPath [['a'], ['b']]) (slashPath [['a'], ['c']]) false =
        Except.ok r ∧
      resolve (slashPath [['a'], ['b']]) [r] = normalize (slashPath [['a'], ['c']]) :=
  resolve_relative_roundtrip [['a'], ['b']] [['a'], ['c']]
    (by decide) (by decide)

end TS
